import Mathlib

/-!
Shallow embedding of the curve-boolean core of `curvo` (src/boolean/mod.rs)
and verification of its specification claims.

The graph of intersection nodes built by `boolean` is embedded as two flat
lists of nodes (one per input curve); the circular `next`/`prev` links that
the source establishes by the cyclic `windows(2)` pass are represented by
index arithmetic `(i+1) % k` / `(i+k-1) % k`, and the weak `neighbor`
cross-links by an optional index into the other list.  The mutable
`visited` flags live in a separate state record.  Machinery that the
source takes from collaborating modules that are not part of the boolean
core (the intersection oracle, `contains`, `point_at`, `try_trim` on a
curve) enters as explicit inputs or is modelled from the spec, as marked.
-/

namespace Curvo

/-- Status of a graph node.  The source enum `status::Status` is not under
`src/`; modelled from the spec: a two-variant Enter/Exit classification plus
the unset default the traversal matches with a `todo!()` branch. -/
inductive Status where
  | None : Status
  | Enter : Status
  | Exit : Status
deriving DecidableEq, Repr

/-- Modelled from the spec: "Invert flips every node status on that list
(Enter <-> Exit)". -/
def Status.invert : Status → Status
  | Status.None => Status.None
  | Status.Enter => Status.Exit
  | Status.Exit => Status.Enter

/-- The operation selector (`operation::BooleanOperation`, not under `src/`;
modelled from the spec: variants Union, Intersection, Difference). -/
inductive BooleanOperation where
  | Union : BooleanOperation
  | Intersection : BooleanOperation
  | Difference : BooleanOperation
deriving DecidableEq, Repr

/-- A curve, abstracted to its closed parametric knot domain.
Modelled from the spec: the curve representation is an external
collaborator; the boolean core only uses its domain and trim capability. -/
structure NurbsCurve where
  knots0 : ℚ
  knots1 : ℚ
deriving DecidableEq, Repr

/-- Modelled from the spec: `NurbsCurve::try_trim` (not under `src/`) splits
a curve at a parameter into a (head, tail) pair and fails when the
parameter lies outside the curve domain. -/
def NurbsCurve.try_trim (c : NurbsCurve) (t : ℚ) :
    Except String (NurbsCurve × NurbsCurve) :=
  if c.knots0 ≤ t ∧ t ≤ c.knots1 then
    Except.ok (⟨c.knots0, t⟩, ⟨t, c.knots1⟩)
  else
    Except.error "trim parameter out of domain"

/-- One transversal crossing as returned by the intersection oracle:
the parameter on curve A and the parameter on curve B. -/
structure IntersectionRecord where
  a : ℚ
  b : ℚ
deriving DecidableEq, Repr

/-- The free function `try_trim` of src/boolean/mod.rs: cuts the span
between two parameters out of a closed curve, keeping the interior when
`p0 < p1` and the two exterior pieces (wrapped tail first) otherwise. -/
def try_trim (curve : NurbsCurve) (parameters : ℚ × ℚ) :
    Except String (List NurbsCurve) :=
  let min := if parameters.1 ≤ parameters.2 then parameters.1 else parameters.2
  let max := if parameters.1 ≤ parameters.2 then parameters.2 else parameters.1
  let inside := parameters.1 < parameters.2
  if inside then
    match curve.try_trim min with
    | Except.error e => Except.error e
    | Except.ok (_, tail) =>
      match tail.try_trim max with
      | Except.error e => Except.error e
      | Except.ok (head, _) => Except.ok [head]
  else
    match curve.try_trim min with
    | Except.error e => Except.error e
    | Except.ok (head, tail) =>
      match tail.try_trim max with
      | Except.error e => Except.error e
      | Except.ok (_, tail2) => Except.ok [tail2, head]

/-- A node of the intersection graph: its parameter on the owning curve,
its Enter/Exit status and the index of its cross-link partner on the other
list (`neighbor`).  `subject`/position and the circular `next`/`prev`
links are carried by the node's place in its list. -/
structure BNode where
  parameter : ℚ
  status : Status
  neighbor : Option Nat
deriving DecidableEq, Repr

/-- The node graph: list `a` of subject-curve nodes sorted by parameter on
A, list `b` of clip-curve nodes sorted by parameter on B. -/
structure BGraph where
  a : List BNode
  b : List BNode
deriving DecidableEq, Repr

/-- A reference to a node: `true` selects list `a` (subject), `false`
list `b` (clip); the second component is the position in that list. -/
abbrev NodeRef := Bool × Nat

def BGraph.side (g : BGraph) (s : Bool) : List BNode :=
  if s then g.a else g.b

def BGraph.node? (g : BGraph) (r : NodeRef) : Option BNode :=
  (g.side r.1).get? r.2

def BGraph.status (g : BGraph) (r : NodeRef) : Status :=
  ((g.node? r).map BNode.status).getD Status.None

def BGraph.parameter (g : BGraph) (r : NodeRef) : ℚ :=
  ((g.node? r).map BNode.parameter).getD 0

/-- The circular `next` link: the cyclic `windows(2)` pass of the source
links node `i` to node `(i+1) % k` of the same list. -/
def BGraph.next (g : BGraph) (r : NodeRef) : Option NodeRef :=
  if r.2 < (g.side r.1).length then
    some (r.1, (r.2 + 1) % (g.side r.1).length)
  else
    Option.none

/-- The circular `prev` link: node `i` points back to `(i+k-1) % k`. -/
def BGraph.prev (g : BGraph) (r : NodeRef) : Option NodeRef :=
  if r.2 < (g.side r.1).length then
    some (r.1, (r.2 + (g.side r.1).length - 1) % (g.side r.1).length)
  else
    Option.none

/-- The cross link established by `set_neighbor`: it leads to the stored
position on the other list. -/
def BGraph.neighbor (g : BGraph) (r : NodeRef) : Option NodeRef :=
  ((g.node? r).bind BNode.neighbor).map (fun j => (!r.1, j))

/-- The mutable `visited` flags of the two node lists. -/
structure VState where
  va : List Bool
  vb : List Bool
deriving DecidableEq, Repr

def VState.visited (vs : VState) (r : NodeRef) : Bool :=
  (if r.1 then vs.va else vs.vb).getD r.2 false

def VState.visit (vs : VState) (r : NodeRef) : VState :=
  if r.1 then ⟨vs.va.set r.2 true, vs.vb⟩ else ⟨vs.va, vs.vb.set r.2 true⟩

/-- Status seeding: walk a list of length `n` assigning alternating
Enter/Exit statuses starting from `flag` (the loop that flips `a_flag` /
`b_flag` at every node). -/
def seedList : Bool → Nat → List Status
  | _, 0 => []
  | flag, n + 1 =>
    (if flag then Status.Enter else Status.Exit) :: seedList (!flag) n

/-- The operation-dependent status inversion applied after seeding:
Union or Difference inverts list `a`, Union additionally inverts list
`b`. -/
def applyOpInversion (operation : BooleanOperation)
    (aStatus bStatus : List Status) : List Status × List Status :=
  let aStatus :=
    match operation with
    | BooleanOperation.Union | BooleanOperation.Difference =>
      aStatus.map Status.invert
    | _ => aStatus
  let bStatus :=
    if operation = BooleanOperation.Union then bStatus.map Status.invert
    else bStatus
  (aStatus, bStatus)

/-- Stable insertion used by `sortedBy`: the new element goes after every
already-placed element that compares less-or-equal, reproducing the stable
`sorted_by` of the source. -/
def insertSorted (le : α → α → Bool) (x : α) : List α → List α
  | [] => [x]
  | y :: ys => if le y x then y :: insertSorted le x ys else x :: y :: ys

/-- Stable sort embedding `itertools` `sorted_by`. -/
def sortedBy (le : α → α → Bool) (l : List α) : List α :=
  l.foldl (fun acc x => insertSorted le x acc) []

/-- Graph construction of `boolean`: enumerate the intersection records,
sort by the parameter on A to obtain list `a` and by the parameter on B to
obtain list `b`, cross-link nodes built from the same record, then seed
the statuses from the two containment flags and apply the
operation-dependent inversion. -/
def buildGraph (records : List IntersectionRecord) (aFlag bFlag : Bool)
    (operation : BooleanOperation) : BGraph :=
  let indexed := (List.range records.length).zip records
  let sa := sortedBy (fun x y => decide (x.2.a ≤ y.2.a)) indexed
  let sb := sortedBy (fun x y => decide (x.2.b ≤ y.2.b)) indexed
  let seeded :=
    applyOpInversion operation (seedList aFlag sa.length)
      (seedList bFlag sb.length)
  let aNodes := (sa.zip seeded.1).map fun p =>
    { parameter := p.1.2.a, status := p.2,
      neighbor := sb.findIdx? (fun q => q.1 == p.1.1) : BNode }
  let bNodes := (sb.zip seeded.2).map fun p =>
    { parameter := p.1.2.b, status := p.2,
      neighbor := sa.findIdx? (fun q => q.1 == p.1.1) : BNode }
  ⟨aNodes, bNodes⟩

/-- A region: a compound exterior boundary (list of trimmed segments) and
interior holes, always empty here. -/
structure Region where
  exterior : List NurbsCurve
  holes : List (List NurbsCurve)
deriving DecidableEq, Repr

/-- Outcome of the path walk: normal loop exit with the updated visited
state and accumulated node path, the `todo!()` panic on an unset status,
or fuel exhaustion (the escape valve of the fueled embedding; it never
occurs, see the termination theorems). -/
inductive WalkOut where
  | done : VState → List NodeRef → WalkOut
  | panicked : WalkOut
  | fuelOut : WalkOut
deriving DecidableEq, Repr

/-- The status-directed link: an Enter node hands the walk its `next`
link, an Exit node its `prev` link, and an unset status reaches the
`todo!()` branch. -/
def next_or_prev (g : BGraph) (r : NodeRef) :
    Except Unit (Option NodeRef) :=
  match g.status r with
  | Status.Enter => Except.ok (g.next r)
  | Status.Exit => Except.ok (g.prev r)
  | Status.None => Except.error ()

/-- The inner traversal loop of `boolean`: break on an already-visited
current node; otherwise mark and append it, follow the status-directed
link, mark and append the reached node, then jump to its cross partner or
terminate the path when it has none. -/
def walkLoop (g : BGraph) :
    Nat → NodeRef → VState → List NodeRef → WalkOut
  | 0, _, _, _ => WalkOut.fuelOut
  | fuel + 1, current, vs, acc =>
    if vs.visited current then WalkOut.done vs acc
    else
      let vs1 := vs.visit current
      let acc1 := acc ++ [current]
      match next_or_prev g current with
      | Except.error _ => WalkOut.panicked
      | Except.ok Option.none => WalkOut.done vs1 acc1
      | Except.ok (some nxt) =>
        let vs2 := vs1.visit nxt
        let acc2 := acc1 ++ [nxt]
        match g.neighbor nxt with
        | Option.none => WalkOut.done vs2 acc2
        | some nb => walkLoop g fuel nb vs2 acc2

/-- The scan loop inside the `non_visited` closure: follow `next` links
until the scan returns to the origin node or reaches an unvisited node.
`Option.none` is the fuel escape; `some r` is the closure result. -/
def nonVisitedLoop (g : BGraph) (vs : VState) (origin : NodeRef) :
    Nat → NodeRef → Option (Option NodeRef)
  | 0, _ => Option.none
  | fuel + 1, nv =>
    match g.next nv with
    | Option.none => some Option.none
    | some nxt =>
      if nxt = origin ∨ ¬vs.visited nxt then
        some (if vs.visited nxt then Option.none else some nxt)
      else
        nonVisitedLoop g vs origin fuel nxt

/-- The `non_visited` closure: the node itself when unvisited, otherwise
the first unvisited node reached by the scan loop, `none` when the scan
returns to the origin with everything visited. -/
def nonVisited (g : BGraph) (vs : VState) (node : NodeRef) (fuel : Nat) :
    Option (Option NodeRef) :=
  if vs.visited node then nonVisitedLoop g vs node fuel node
  else some (some node)

/-- The pair consumption of an accumulated path (the `chunks(2)` loop):
a lone trailing node stops consumption; an (Enter, Exit) pair is trimmed
oriented forward, an (Exit, Enter) pair backward, any other status pair
stops consumption of the whole remaining path; a pair owned by both
curves trims the subject, one owned by neither trims the clip, a mixed
pair is skipped. -/
def consumeChunks (selfCurve otherCurve : NurbsCurve) (g : BGraph) :
    List NodeRef → Except String (List NurbsCurve)
  | [] => Except.ok []
  | [_] => Except.ok []
  | n0 :: n1 :: rest =>
    let params? : Option (ℚ × ℚ) :=
      match g.status n0, g.status n1 with
      | Status.Enter, Status.Exit =>
        some (g.parameter n0, g.parameter n1)
      | Status.Exit, Status.Enter =>
        some (g.parameter n1, g.parameter n0)
      | _, _ => Option.none
    match params? with
    | Option.none => Except.ok []
    | some params =>
      let toTrim : Option NurbsCurve :=
        match n0.1, n1.1 with
        | true, true => some selfCurve
        | false, false => some otherCurve
        | _, _ => Option.none
      match toTrim with
      | Option.none => consumeChunks selfCurve otherCurve g rest
      | some c =>
        match try_trim c params with
        | Except.error e => Except.error e
        | Except.ok trimmed =>
          match consumeChunks selfCurve otherCurve g rest with
          | Except.error e => Except.error e
          | Except.ok spans => Except.ok (trimmed ++ spans)

/-- Outcome of the whole boolean call: success with the regions, the final
subject node list and (as a ghost record kept for specification) the node
path accumulated by each outer iteration; an `anyhow` error; the `todo!()`
panic; or fuel exhaustion of the fueled loop embedding. -/
inductive BOut where
  | ok : List Region → List BNode → List (List NodeRef) → BOut
  | error : String → BOut
  | panicked : BOut
  | fuelOut : BOut
deriving DecidableEq, Repr

/-- The outer traversal loop: pick the first unvisited node scanning from
`a[0]`, walk a path, consume it into trimmed spans, push the resulting
region, and repeat until every node of list `a` is visited. -/
def outerLoop (selfCurve otherCurve : NurbsCurve) (g : BGraph) :
    Nat → VState → List Region → List (List NodeRef) → BOut
  | 0, _, _, _ => BOut.fuelOut
  | fuel + 1, vs, regions, paths =>
    match nonVisited g vs (true, 0) (g.a.length + 1) with
    | Option.none => BOut.fuelOut
    | some Option.none => BOut.ok regions g.a paths
    | some (some start) =>
      match walkLoop g (2 * (g.a.length + g.b.length) + 2) start vs [] with
      | WalkOut.panicked => BOut.panicked
      | WalkOut.fuelOut => BOut.fuelOut
      | WalkOut.done vs1 path =>
        match consumeChunks selfCurve otherCurve g path with
        | Except.error e => BOut.error e
        | Except.ok spans =>
          outerLoop selfCurve otherCurve g fuel vs1
            (regions ++ [⟨spans, []⟩]) (paths ++ [path])

/-- The boolean call, from the oracle output onward: the `is_empty` bail,
graph construction with the containment-derived seed flags, and the
traversal loop.  `aContains` stands for `other.contains(self-start
point)`, `bContains` for `self.contains(other-start point)`; both are
results of the external containment collaborator. -/
def boolean (selfCurve otherCurve : NurbsCurve)
    (operation : BooleanOperation) (records : List IntersectionRecord)
    (aContains bContains : Bool) : BOut :=
  if records.isEmpty then BOut.error "Todo: no intersections case"
  else
    let g := buildGraph records (!aContains) (!bContains) operation
    let vs0 : VState :=
      ⟨List.replicate g.a.length false, List.replicate g.b.length false⟩
    outerLoop selfCurve otherCurve g (2 * records.length + 2) vs0 [] []

/-! ### Basic facts about the building blocks -/

theorem seedList_length (flag : Bool) (n : Nat) :
    (seedList flag n).length = n := by
  induction n generalizing flag with
  | zero => rfl
  | succ m ih => simp [seedList, ih]

theorem insertSorted_length (le : α → α → Bool) (x : α) (l : List α) :
    (insertSorted le x l).length = l.length + 1 := by
  induction l with
  | nil => rfl
  | cons y ys ih =>
    by_cases h : le y x = true
    · simp [insertSorted, h, ih]
    · simp [insertSorted, h]

theorem sortedBy_foldl_length (le : α → α → Bool) (l acc : List α) :
    (l.foldl (fun acc x => insertSorted le x acc) acc).length =
      acc.length + l.length := by
  induction l generalizing acc with
  | nil => simp
  | cons x xs ih =>
    simp only [List.foldl_cons, ih, insertSorted_length, List.length_cons]
    omega

theorem sortedBy_length (le : α → α → Bool) (l : List α) :
    (sortedBy le l).length = l.length := by
  simp [sortedBy, sortedBy_foldl_length]

theorem applyOpInversion_fst_length (op : BooleanOperation)
    (a b : List Status) : (applyOpInversion op a b).1.length = a.length := by
  cases op <;> simp [applyOpInversion]

theorem applyOpInversion_snd_length (op : BooleanOperation)
    (a b : List Status) : (applyOpInversion op a b).2.length = b.length := by
  cases op <;> simp [applyOpInversion]

theorem buildGraph_a_length (records : List IntersectionRecord)
    (aFlag bFlag : Bool) (op : BooleanOperation) :
    (buildGraph records aFlag bFlag op).a.length = records.length := by
  simp [buildGraph, sortedBy_length, seedList_length,
    applyOpInversion_fst_length, List.length_zip]

theorem buildGraph_b_length (records : List IntersectionRecord)
    (aFlag bFlag : Bool) (op : BooleanOperation) :
    (buildGraph records aFlag bFlag op).b.length = records.length := by
  simp [buildGraph, sortedBy_length, seedList_length,
    applyOpInversion_snd_length, List.length_zip]

theorem buildGraph_a_statuses (records : List IntersectionRecord)
    (aFlag bFlag : Bool) (op : BooleanOperation) :
    (buildGraph records aFlag bFlag op).a.map BNode.status =
      (applyOpInversion op (seedList aFlag records.length)
        (seedList bFlag records.length)).1 := by
  have hlen : (sortedBy (fun x y => decide (x.2.a ≤ y.2.a))
      ((List.range records.length).zip records)).length = records.length := by
    simp [sortedBy_length, List.length_zip]
  have hlenb : (sortedBy (fun x y => decide (x.2.b ≤ y.2.b))
      ((List.range records.length).zip records)).length = records.length := by
    simp [sortedBy_length, List.length_zip]
  simp only [buildGraph, hlen, hlenb, List.map_map]
  rw [show (BNode.status ∘ fun p : (Nat × IntersectionRecord) × Status =>
      ({ parameter := p.1.2.a, status := p.2,
         neighbor := (sortedBy (fun x y => decide (x.2.b ≤ y.2.b))
          ((List.range records.length).zip records)).findIdx?
            (fun q => q.1 == p.1.1) } : BNode)) = Prod.snd from rfl]
  exact List.map_snd_zip _ _ (by
    rw [hlen, applyOpInversion_fst_length, seedList_length])

theorem buildGraph_b_statuses (records : List IntersectionRecord)
    (aFlag bFlag : Bool) (op : BooleanOperation) :
    (buildGraph records aFlag bFlag op).b.map BNode.status =
      (applyOpInversion op (seedList aFlag records.length)
        (seedList bFlag records.length)).2 := by
  have hlen : (sortedBy (fun x y => decide (x.2.a ≤ y.2.a))
      ((List.range records.length).zip records)).length = records.length := by
    simp [sortedBy_length, List.length_zip]
  have hlenb : (sortedBy (fun x y => decide (x.2.b ≤ y.2.b))
      ((List.range records.length).zip records)).length = records.length := by
    simp [sortedBy_length, List.length_zip]
  simp only [buildGraph, hlen, hlenb, List.map_map]
  rw [show (BNode.status ∘ fun p : (Nat × IntersectionRecord) × Status =>
      ({ parameter := p.1.2.b, status := p.2,
         neighbor := (sortedBy (fun x y => decide (x.2.a ≤ y.2.a))
          ((List.range records.length).zip records)).findIdx?
            (fun q => q.1 == p.1.1) } : BNode)) = Prod.snd from rfl]
  exact List.map_snd_zip _ _ (by
    rw [hlenb, applyOpInversion_snd_length, seedList_length])

/-- Two consecutive statuses form a strict Enter/Exit alternation step. -/
def statusPairOk (s0 s1 : Status) : Bool :=
  (s0 == Status.Enter && s1 == Status.Exit) ||
  (s0 == Status.Exit && s1 == Status.Enter)

/-- The statuses of a list strictly alternate between Enter and Exit. -/
def alternates : List Status → Bool
  | [] => true
  | [s] => s == Status.Enter || s == Status.Exit
  | s0 :: s1 :: rest => statusPairOk s0 s1 && alternates (s1 :: rest)

theorem alternates_seedList (n : Nat) :
    ∀ flag : Bool, alternates (seedList flag n) = true := by
  induction n with
  | zero => intro flag; rfl
  | succ m ih =>
    intro flag
    cases m with
    | zero => cases flag <;> rfl
    | succ j =>
      have htail := ih (!flag)
      cases flag <;>
        simpa [seedList, alternates, statusPairOk] using htail

theorem seedList_head (flag : Bool) (m : Nat) :
    (seedList flag (m + 1)).head? =
      some (if flag then Status.Enter else Status.Exit) := by
  cases flag <;> rfl

theorem alternates_map_invert (l : List Status)
    (h : alternates l = true) :
    alternates (l.map Status.invert) = true := by
  induction l with
  | nil => rfl
  | cons s tail ih =>
    cases tail with
    | nil =>
      cases s <;> simp_all [alternates, Status.invert]
    | cons s1 rest =>
      have h1 : statusPairOk s s1 = true ∧ alternates (s1 :: rest) = true := by
        simpa [alternates, Bool.and_eq_true] using h
      have h2 := ih h1.2
      have hpair : statusPairOk (Status.invert s) (Status.invert s1) = true := by
        cases s <;> cases s1 <;> simp_all [statusPairOk, Status.invert]
      calc alternates ((s :: s1 :: rest).map Status.invert)
          = (statusPairOk (Status.invert s) (Status.invert s1) &&
              alternates ((s1 :: rest).map Status.invert)) := by
            simp [alternates]
        _ = true := by rw [hpair, h2]; rfl

/-- Claim C3: for every boolean call that reaches status seeding, the
statuses of the whole lists are inverted exactly per operation — Union
inverts every node status in both listA and listB, Intersection inverts
neither list, Difference inverts listA only — and the statuses stored in
the built graph are exactly the seeded lists with this inversion
applied. -/
theorem C3_operation_inversion_table :
    (∀ aStatus bStatus : List Status,
      applyOpInversion BooleanOperation.Union aStatus bStatus =
        (aStatus.map Status.invert, bStatus.map Status.invert) ∧
      applyOpInversion BooleanOperation.Intersection aStatus bStatus =
        (aStatus, bStatus) ∧
      applyOpInversion BooleanOperation.Difference aStatus bStatus =
        (aStatus.map Status.invert, bStatus)) ∧
    (∀ (records : List IntersectionRecord) (aFlag bFlag : Bool)
      (op : BooleanOperation),
      (buildGraph records aFlag bFlag op).a.map BNode.status =
        (applyOpInversion op (seedList aFlag records.length)
          (seedList bFlag records.length)).1 ∧
      (buildGraph records aFlag bFlag op).b.map BNode.status =
        (applyOpInversion op (seedList aFlag records.length)
          (seedList bFlag records.length)).2) := by
  constructor
  · intro aStatus bStatus
    exact ⟨rfl, rfl, rfl⟩
  · intro records aFlag bFlag op
    exact ⟨buildGraph_a_statuses records aFlag bFlag op,
      buildGraph_b_statuses records aFlag bFlag op⟩

/-- Claim C4: statuses are seeded so that listA strictly alternates
Enter/Exit starting from Enter iff the other curve does not contain the
first curve's domain-start point (`aContains` is the containment result),
independently the same for listB with roles swapped, and the alternation
persists through the operation-dependent inversion into the built
graph. -/
theorem C4_alternation (records : List IntersectionRecord)
    (op : BooleanOperation) (aContains bContains : Bool)
    (h : records ≠ []) :
    alternates (seedList (!aContains) records.length) = true ∧
    (seedList (!aContains) records.length).head? =
      some (if aContains then Status.Exit else Status.Enter) ∧
    alternates (seedList (!bContains) records.length) = true ∧
    (seedList (!bContains) records.length).head? =
      some (if bContains then Status.Exit else Status.Enter) ∧
    alternates
      ((buildGraph records (!aContains) (!bContains) op).a.map
        BNode.status) = true ∧
    alternates
      ((buildGraph records (!aContains) (!bContains) op).b.map
        BNode.status) = true := by
  obtain ⟨m, hm⟩ : ∃ m, records.length = m + 1 := by
    cases records with
    | nil => exact absurd rfl h
    | cons r rs => exact ⟨rs.length, rfl⟩
  refine ⟨alternates_seedList _ _, ?_, alternates_seedList _ _, ?_, ?_, ?_⟩
  · rw [hm, seedList_head]; cases aContains <;> rfl
  · rw [hm, seedList_head]; cases bContains <;> rfl
  · rw [buildGraph_a_statuses]
    cases op <;>
      simp [applyOpInversion, alternates_seedList,
        alternates_map_invert _ (alternates_seedList _ _)]
  · rw [buildGraph_b_statuses]
    cases op <;>
      simp [applyOpInversion, alternates_seedList,
        alternates_map_invert _ (alternates_seedList _ _)]

/-- Witness for C4 at a concrete input. -/
theorem C4_alternation_witness :
    ([⟨1, 1⟩] : List IntersectionRecord) ≠ [] ∧
    alternates (seedList (!true) ([⟨1, 1⟩] :
      List IntersectionRecord).length) = true := by
  refine ⟨by decide, ?_⟩
  exact (C4_alternation [⟨1, 1⟩] BooleanOperation.Intersection true true
    (by decide)).1

/-- Claim C7: on parameters whose underlying trims succeed, the trim
primitive returns exactly one segment — the interior span `[p0, p1]` —
when `p0 < p1`, and exactly two segments in the order (wrapped tail piece
`[p0, domain end)`, head piece `[domain start, p1]`) when `p0 ≥ p1`. -/
theorem C7_try_trim (curve : NurbsCurve) (p0 p1 : ℚ) :
    (p0 < p1 → curve.knots0 ≤ p0 → p1 ≤ curve.knots1 →
      try_trim curve (p0, p1) = Except.ok [⟨p0, p1⟩]) ∧
    (p1 ≤ p0 → curve.knots0 ≤ p1 → p0 ≤ curve.knots1 →
      try_trim curve (p0, p1) =
        Except.ok [⟨p0, curve.knots1⟩, ⟨curve.knots0, p1⟩]) := by
  constructor
  · intro hlt h0 h1
    have hle : p0 ≤ p1 := le_of_lt hlt
    have hp0hi : p0 ≤ curve.knots1 := le_trans hle h1
    simp [try_trim, NurbsCurve.try_trim, hlt, hle, h0, h1, hp0hi,
      not_lt.mpr]
  · intro hge h0 h1
    have hnlt : ¬p0 < p1 := not_lt.mpr hge
    have hp1hi : p1 ≤ curve.knots1 := le_trans hge h1
    by_cases heq : p0 ≤ p1
    · have hpe : p0 = p1 := le_antisymm heq hge
      subst hpe
      simp [try_trim, NurbsCurve.try_trim, hnlt, h0, h1, le_refl]
    · have hmin : ¬(p0 ≤ p1) := heq
      simp [try_trim, NurbsCurve.try_trim, hnlt, hmin, h0, h1, hge, hp1hi]

/-- Witness for C7 at concrete inputs: an interior trim and a wrapped
exterior trim on the domain `[0, 10]`. -/
theorem C7_try_trim_witness :
    ((2 : ℚ) < 7 ∧
      try_trim ⟨0, 10⟩ ((2 : ℚ), (7 : ℚ)) = Except.ok [⟨2, 7⟩]) ∧
    ((2 : ℚ) ≤ 7 ∧
      try_trim ⟨0, 10⟩ ((7 : ℚ), (2 : ℚ)) =
        Except.ok [⟨7, 10⟩, ⟨0, 2⟩]) := by
  refine ⟨⟨by norm_num, ?_⟩, ⟨by norm_num, ?_⟩⟩
  · exact (C7_try_trim ⟨0, 10⟩ 2 7).1 (by norm_num) (by norm_num)
      (by norm_num)
  · exact (C7_try_trim ⟨0, 10⟩ 7 2).2 (by norm_num) (by norm_num)
      (by norm_num)

/-- Claim C6 fails on the code: on the path below the first pair has the
invalid status combination (Enter, Enter) and the `chunks(2)` loop
`break`s, so the following valid (Enter, Exit) pair — which on its own
would produce the span `[6, 8]` — is abandoned too; consumption does not
continue after the offending pair. -/
theorem C6_counterexample :
    consumeChunks ⟨0, 10⟩ ⟨0, 10⟩
      ⟨[⟨2, Status.Enter, some 0⟩, ⟨4, Status.Enter, some 1⟩,
        ⟨6, Status.Enter, some 2⟩, ⟨8, Status.Exit, some 3⟩], []⟩
      [(true, 0), (true, 1), (true, 2), (true, 3)] = Except.ok [] ∧
    consumeChunks ⟨0, 10⟩ ⟨0, 10⟩
      ⟨[⟨2, Status.Enter, some 0⟩, ⟨4, Status.Enter, some 1⟩,
        ⟨6, Status.Enter, some 2⟩, ⟨8, Status.Exit, some 3⟩], []⟩
      [(true, 2), (true, 3)] = Except.ok [⟨6, 8⟩] := by
  exact ⟨by rfl, by rfl⟩

/-- Claim C6 amended: a pair whose two statuses are not (Enter, Exit) and
not (Exit, Enter) stops consumption of the entire remaining path — the
offending pair and every subsequent pair are dropped; only spans already
produced are kept. -/
theorem C6_amended (selfCurve otherCurve : NurbsCurve) (g : BGraph)
    (n0 n1 : NodeRef) (rest : List NodeRef)
    (h : ¬((g.status n0 = Status.Enter ∧ g.status n1 = Status.Exit) ∨
      (g.status n0 = Status.Exit ∧ g.status n1 = Status.Enter))) :
    consumeChunks selfCurve otherCurve g (n0 :: n1 :: rest) =
      Except.ok [] := by
  cases hs0 : g.status n0 <;> cases hs1 : g.status n1 <;>
    simp_all [consumeChunks]

/-- Witness for C6 amended: an (Exit, Exit) pair followed by more nodes
consumes to nothing. -/
theorem C6_amended_witness :
    ¬(((⟨[⟨1, Status.Exit, Option.none⟩, ⟨2, Status.Exit, Option.none⟩],
        []⟩ : BGraph).status (true, 0) = Status.Enter ∧
       (⟨[⟨1, Status.Exit, Option.none⟩, ⟨2, Status.Exit, Option.none⟩],
        []⟩ : BGraph).status (true, 1) = Status.Exit) ∨
      ((⟨[⟨1, Status.Exit, Option.none⟩, ⟨2, Status.Exit, Option.none⟩],
        []⟩ : BGraph).status (true, 0) = Status.Exit ∧
       (⟨[⟨1, Status.Exit, Option.none⟩, ⟨2, Status.Exit, Option.none⟩],
        []⟩ : BGraph).status (true, 1) = Status.Enter)) ∧
    consumeChunks ⟨0, 10⟩ ⟨0, 10⟩
      ⟨[⟨1, Status.Exit, Option.none⟩, ⟨2, Status.Exit, Option.none⟩], []⟩
      [(true, 0), (true, 1), (true, 0), (true, 1)] = Except.ok [] := by
  refine ⟨by decide, ?_⟩
  exact C6_amended ⟨0, 10⟩ ⟨0, 10⟩
    ⟨[⟨1, Status.Exit, Option.none⟩, ⟨2, Status.Exit, Option.none⟩], []⟩
    (true, 0) (true, 1) [(true, 0), (true, 1)] (by decide)

/-- Claim C1 fails on the code: the guard only rejects an empty
intersection set.  With exactly one transversal crossing the call does
not fail — it builds the one-node-per-list graph, traverses it and
returns Ok with a (degenerate) region. -/
theorem C1_counterexample :
    boolean ⟨0, 10⟩ ⟨0, 10⟩ BooleanOperation.Intersection [⟨5, 5⟩]
        true true =
      BOut.ok [⟨[], []⟩] [⟨5, Status.Exit, some 0⟩]
        [[(true, 0), (true, 0), (false, 0), (false, 0)]] := by
  rfl

/-- Claim C1 amended: only a crossing count of zero makes the boolean
call fail with the no-intersection error; the error carries the bail
message and no regions are produced.  (A count of exactly one passes the
guard, see the counterexample.) -/
theorem C1_amended (selfCurve otherCurve : NurbsCurve)
    (op : BooleanOperation) (aContains bContains : Bool) :
    boolean selfCurve otherCurve op [] aContains bContains =
      BOut.error "Todo: no intersections case" := by
  rfl

/-- Claim C2 is right about the intended topology but the code has no
parity check: with an odd crossing count (here three) the call builds
the graph, traverses it and returns Ok instead of failing with an
odd-intersection-count error. -/
theorem C2_odd_count_not_rejected :
    boolean ⟨0, 10⟩ ⟨0, 10⟩ BooleanOperation.Intersection
        [⟨2, 2⟩, ⟨5, 5⟩, ⟨8, 8⟩] true true =
      BOut.ok [⟨[], []⟩]
        [⟨2, Status.Exit, some 0⟩, ⟨5, Status.Enter, some 1⟩,
         ⟨8, Status.Exit, some 2⟩]
        [[(true, 0), (true, 2), (false, 2), (false, 1), (true, 1),
          (true, 2)]] := by
  rfl

/-- Claim C5: from an unvisited current node the walk marks and appends
the current node, follows `next` when its status is Enter and `prev` when
Exit, marks and appends the reached node, then jumps to that node's cross
partner when one exists and terminates the path when none does. -/
theorem C5_walk_step (g : BGraph) (fuel : Nat) (current : NodeRef)
    (vs : VState) (acc : List NodeRef)
    (h : vs.visited current = false) :
    (∀ nxt, g.status current = Status.Enter → g.next current = some nxt →
      walkLoop g (fuel + 1) current vs acc =
        match g.neighbor nxt with
        | some nb =>
          walkLoop g fuel nb ((vs.visit current).visit nxt)
            ((acc ++ [current]) ++ [nxt])
        | Option.none =>
          WalkOut.done ((vs.visit current).visit nxt)
            ((acc ++ [current]) ++ [nxt])) ∧
    (∀ nxt, g.status current = Status.Exit → g.prev current = some nxt →
      walkLoop g (fuel + 1) current vs acc =
        match g.neighbor nxt with
        | some nb =>
          walkLoop g fuel nb ((vs.visit current).visit nxt)
            ((acc ++ [current]) ++ [nxt])
        | Option.none =>
          WalkOut.done ((vs.visit current).visit nxt)
            ((acc ++ [current]) ++ [nxt])) ∧
    (g.status current = Status.Enter → g.next current = Option.none →
      walkLoop g (fuel + 1) current vs acc =
        WalkOut.done (vs.visit current) (acc ++ [current])) ∧
    (g.status current = Status.Exit → g.prev current = Option.none →
      walkLoop g (fuel + 1) current vs acc =
        WalkOut.done (vs.visit current) (acc ++ [current])) := by
  refine ⟨?_, ?_, ?_, ?_⟩
  · intro nxt hst hnx
    simp only [walkLoop, h, Bool.false_eq_true, if_false, next_or_prev,
      hst, hnx]
    cases g.neighbor nxt <;> rfl
  · intro nxt hst hnx
    simp only [walkLoop, h, Bool.false_eq_true, if_false, next_or_prev,
      hst, hnx]
    cases g.neighbor nxt <;> rfl
  · intro hst hnx
    simp only [walkLoop, h, Bool.false_eq_true, if_false, next_or_prev,
      hst, hnx]
  · intro hst hnx
    simp only [walkLoop, h, Bool.false_eq_true, if_false, next_or_prev,
      hst, hnx]

/-- Witness for C5 at a concrete two-node-per-list graph: the Enter start
node walks to its `next` node and jumps to that node's cross partner. -/
theorem C5_walk_step_witness :
    (⟨[false, false], [false, false]⟩ : VState).visited (true, 0) =
      false ∧
    walkLoop
      ⟨[⟨1, Status.Enter, some 0⟩, ⟨2, Status.Exit, some 1⟩],
       [⟨1, Status.Exit, some 0⟩, ⟨2, Status.Enter, some 1⟩]⟩ 5 (true, 0)
      ⟨[false, false], [false, false]⟩ [] =
    walkLoop
      ⟨[⟨1, Status.Enter, some 0⟩, ⟨2, Status.Exit, some 1⟩],
       [⟨1, Status.Exit, some 0⟩, ⟨2, Status.Enter, some 1⟩]⟩ 4
      (false, 1)
      (((⟨[false, false], [false, false]⟩ : VState).visit
        (true, 0)).visit (true, 1))
      (([] ++ [(true, 0)]) ++ [(true, 1)]) := by
  refine ⟨by decide, ?_⟩
  exact (C5_walk_step
    ⟨[⟨1, Status.Enter, some 0⟩, ⟨2, Status.Exit, some 1⟩],
     [⟨1, Status.Exit, some 0⟩, ⟨2, Status.Enter, some 1⟩]⟩ 4 (true, 0)
    ⟨[false, false], [false, false]⟩ [] (by rfl)).1 (true, 1) (by rfl)
    (by rfl)

/-! ### Validity of references and counting of unvisited nodes -/

/-- A node reference denotes an actual node of its list. -/
def RefValid (g : BGraph) (r : NodeRef) : Prop :=
  r.2 < (g.side r.1).length

/-- Every stored cross link leads to an actual node of the other list. -/
def CrossValid (g : BGraph) : Prop :=
  ∀ r r2 : NodeRef, g.neighbor r = some r2 → RefValid g r2

/-- Every actual node carries an Enter or Exit status. -/
def StatusSet (g : BGraph) : Prop :=
  ∀ r : NodeRef, RefValid g r → g.status r ≠ Status.None

/-- The visited-flag lists have the same lengths as the node lists. -/
def VLen (g : BGraph) (vs : VState) : Prop :=
  vs.va.length = g.a.length ∧ vs.vb.length = g.b.length

/-- Number of unvisited nodes recorded in the visited state. -/
def uc (vs : VState) : Nat :=
  vs.va.count false + vs.vb.count false

theorem count_false_set_true (l : List Bool) (i : Nat) :
    (l.set i true).count false ≤ l.count false ∧
    (i < l.length → l.getD i false = false →
      (l.set i true).count false < l.count false) := by
  induction l generalizing i with
  | nil => exact ⟨le_refl _, fun h => absurd h (by simp)⟩
  | cons b bs ih =>
    cases i with
    | zero =>
      refine ⟨?_, ?_⟩
      · cases b <;> simp [List.count_cons]
      · intro _ hget
        have hb : b = false := by simpa using hget
        subst hb
        simp [List.count_cons]
    | succ j =>
      obtain ⟨ihle, ihlt⟩ := ih j
      refine ⟨?_, ?_⟩
      · cases b <;> simp [List.count_cons] <;> omega
      · intro hlen hget
        have hj : j < bs.length := by simpa using hlen
        have hg : bs.getD j false = false := by simpa using hget
        have := ihlt hj hg
        cases b <;> simp [List.count_cons] <;> omega

theorem vlen_visit (g : BGraph) (vs : VState) (r : NodeRef)
    (h : VLen g vs) : VLen g (vs.visit r) := by
  cases r with
  | mk s i =>
    cases s <;> simpa [VState.visit, VLen, List.length_set] using h

theorem uc_visit_le (vs : VState) (r : NodeRef) :
    uc (vs.visit r) ≤ uc vs := by
  cases r with
  | mk s i =>
    cases s
    · have h := (count_false_set_true vs.vb i).1
      simp only [VState.visit]
      simp only [uc]
      simp
      omega
    · have h := (count_false_set_true vs.va i).1
      simp only [VState.visit]
      simp only [uc]
      simp
      omega

theorem uc_visit_lt (g : BGraph) (vs : VState) (r : NodeRef)
    (hval : RefValid g r) (hlen : VLen g vs)
    (hv : vs.visited r = false) : uc (vs.visit r) < uc vs := by
  cases r with
  | mk s i =>
    cases s
    · have hi : i < vs.vb.length := by
        have h2 := hlen.2
        simp only [RefValid, BGraph.side] at hval
        simpa [h2] using hval
      have hlt := (count_false_set_true vs.vb i).2 hi
        (by simpa [VState.visited] using hv)
      simp only [VState.visit]
      simp only [uc]
      simp
      omega
    · have hi : i < vs.va.length := by
        have h1 := hlen.1
        simp only [RefValid, BGraph.side] at hval
        simpa [h1] using hval
      have hlt := (count_false_set_true vs.va i).2 hi
        (by simpa [VState.visited] using hv)
      simp only [VState.visit]
      simp only [uc]
      simp
      omega

theorem uc_le_of_vlen (g : BGraph) (vs : VState) (h : VLen g vs) :
    uc vs ≤ g.a.length + g.b.length := by
  have h1 := List.count_le_length (a := false) (l := vs.va)
  have h2 := List.count_le_length (a := false) (l := vs.vb)
  have := h.1
  have := h.2
  simp only [uc]
  omega

theorem next_eq (g : BGraph) (r : NodeRef) (h : RefValid g r) :
    g.next r = some (r.1, (r.2 + 1) % (g.side r.1).length) := by
  simp [BGraph.next, h, RefValid] at h ⊢
  exact h

theorem prev_eq (g : BGraph) (r : NodeRef) (h : RefValid g r) :
    g.prev r =
      some (r.1, (r.2 + (g.side r.1).length - 1) % (g.side r.1).length) := by
  simp [BGraph.prev, h, RefValid] at h ⊢
  exact h

theorem next_valid (g : BGraph) (r : NodeRef) (h : RefValid g r) :
    RefValid g (r.1, (r.2 + 1) % (g.side r.1).length) := by
  have hk : 0 < (g.side r.1).length := Nat.lt_of_le_of_lt (Nat.zero_le _) h
  exact Nat.mod_lt _ hk

theorem prev_valid (g : BGraph) (r : NodeRef) (h : RefValid g r) :
    RefValid g
      (r.1, (r.2 + (g.side r.1).length - 1) % (g.side r.1).length) := by
  have hk : 0 < (g.side r.1).length := Nat.lt_of_le_of_lt (Nat.zero_le _) h
  exact Nat.mod_lt _ hk

/-- The inner walk always reaches a normal `done` exit when its fuel
exceeds the number of unvisited nodes: every iteration visits its
(previously unvisited) current node, and cross links and list links stay
inside the graph. -/
theorem walkLoop_done (g : BGraph) (hcv : CrossValid g)
    (hss : StatusSet g) :
    ∀ (fuel : Nat) (current : NodeRef) (vs : VState) (acc : List NodeRef),
    RefValid g current → VLen g vs → uc vs < fuel →
    ∃ vs2 path, walkLoop g fuel current vs acc = WalkOut.done vs2 path ∧
      VLen g vs2 ∧ uc vs2 ≤ uc vs ∧
      (vs.visited current = false → uc vs2 < uc vs) := by
  intro fuel
  induction fuel with
  | zero => intro current vs acc _ _ hf; omega
  | succ f ih =>
    intro current vs acc hval hlen hf
    by_cases hv : vs.visited current = true
    · refine ⟨vs, acc, ?_, hlen, le_refl _, ?_⟩
      · simp [walkLoop, hv]
      · intro hfalse; rw [hv] at hfalse; cases hfalse
    · have hv2 : vs.visited current = false := by
        simpa using hv
      cases hst : g.status current with
      | None => exact absurd hst (hss current hval)
      | Enter =>
        have hnx := next_eq g current hval
        have hnv := next_valid g current hval
        have heq : walkLoop g (f + 1) current vs acc =
            (match g.neighbor
                (current.1, (current.2 + 1) % (g.side current.1).length)
              with
            | some nb =>
              walkLoop g f nb
                ((vs.visit current).visit
                  (current.1, (current.2 + 1) % (g.side current.1).length))
                ((acc ++ [current]) ++
                  [(current.1,
                    (current.2 + 1) % (g.side current.1).length)])
            | Option.none =>
              WalkOut.done
                ((vs.visit current).visit
                  (current.1, (current.2 + 1) % (g.side current.1).length))
                ((acc ++ [current]) ++
                  [(current.1,
                    (current.2 + 1) % (g.side current.1).length)])) := by
          simp only [walkLoop, hv2, Bool.false_eq_true, if_false,
            next_or_prev, hst, hnx]
          cases g.neighbor
            (current.1, (current.2 + 1) % (g.side current.1).length) <;>
            rfl
        have hlt1 : uc (vs.visit current) < uc vs :=
          uc_visit_lt g vs current hval hlen hv2
        have hle2 : uc ((vs.visit current).visit
            (current.1, (current.2 + 1) % (g.side current.1).length)) ≤
            uc (vs.visit current) := uc_visit_le _ _
        have hlen2 : VLen g ((vs.visit current).visit
            (current.1, (current.2 + 1) % (g.side current.1).length)) :=
          vlen_visit g _ _ (vlen_visit g _ _ hlen)
        cases hnb : g.neighbor
            (current.1, (current.2 + 1) % (g.side current.1).length) with
        | none =>
          rw [hnb] at heq
          exact ⟨_, _, heq, hlen2, by omega, fun _ => by omega⟩
        | some nb =>
          rw [hnb] at heq
          obtain ⟨vs2, path, heq2, hl2, hle3, _⟩ :=
            ih nb _ ((acc ++ [current]) ++
              [(current.1, (current.2 + 1) % (g.side current.1).length)])
              (hcv _ _ hnb) hlen2 (by omega)
          exact ⟨vs2, path, heq.trans heq2, hl2, by omega, fun _ => by
            omega⟩
      | Exit =>
        have hnx := prev_eq g current hval
        have hnv := prev_valid g current hval
        have heq : walkLoop g (f + 1) current vs acc =
            (match g.neighbor
                (current.1, (current.2 + (g.side current.1).length - 1) %
                  (g.side current.1).length)
              with
            | some nb =>
              walkLoop g f nb
                ((vs.visit current).visit
                  (current.1, (current.2 + (g.side current.1).length - 1) %
                    (g.side current.1).length))
                ((acc ++ [current]) ++
                  [(current.1,
                    (current.2 + (g.side current.1).length - 1) %
                      (g.side current.1).length)])
            | Option.none =>
              WalkOut.done
                ((vs.visit current).visit
                  (current.1, (current.2 + (g.side current.1).length - 1) %
                    (g.side current.1).length))
                ((acc ++ [current]) ++
                  [(current.1,
                    (current.2 + (g.side current.1).length - 1) %
                      (g.side current.1).length)])) := by
          simp only [walkLoop, hv2, Bool.false_eq_true, if_false,
            next_or_prev, hst, hnx]
          cases g.neighbor
            (current.1, (current.2 + (g.side current.1).length - 1) %
              (g.side current.1).length) <;> rfl
        have hlt1 : uc (vs.visit current) < uc vs :=
          uc_visit_lt g vs current hval hlen hv2
        have hle2 : uc ((vs.visit current).visit
            (current.1, (current.2 + (g.side current.1).length - 1) %
              (g.side current.1).length)) ≤
            uc (vs.visit current) := uc_visit_le _ _
        have hlen2 : VLen g ((vs.visit current).visit
            (current.1, (current.2 + (g.side current.1).length - 1) %
              (g.side current.1).length)) :=
          vlen_visit g _ _ (vlen_visit g _ _ hlen)
        cases hnb : g.neighbor
            (current.1, (current.2 + (g.side current.1).length - 1) %
              (g.side current.1).length) with
        | none =>
          rw [hnb] at heq
          exact ⟨_, _, heq, hlen2, by omega, fun _ => by omega⟩
        | some nb =>
          rw [hnb] at heq
          obtain ⟨vs2, path, heq2, hl2, hle3, _⟩ :=
            ih nb _ ((acc ++ [current]) ++
              [(current.1, (current.2 + (g.side current.1).length - 1) %
                (g.side current.1).length)])
              (hcv _ _ hnb) hlen2 (by omega)
          exact ⟨vs2, path, heq.trans heq2, hl2, by omega, fun _ => by
            omega⟩

theorem next_some (g : BGraph) (s0 : Bool) (p : Nat) (nxt : NodeRef)
    (h : g.next (s0, p) = some nxt) :
    p < (g.side s0).length ∧ nxt = (s0, (p + 1) % (g.side s0).length) := by
  by_cases hp : p < (g.side s0).length
  · refine ⟨hp, ?_⟩
    simp only [BGraph.next, hp, if_true] at h
    exact (Option.some.injEq _ _ ▸ h).symm
  · simp [BGraph.next, hp] at h

/-- The scan loop never runs out of fuel when given at least the cyclic
distance from the current position back to the origin. -/
theorem nonVisitedLoop_ne_none (g : BGraph) (vs : VState) (o : Nat)
    (ho : o < g.a.length) :
    ∀ (fuel p : Nat), p < g.a.length →
    (if p < o then o - p else o + g.a.length - p) ≤ fuel →
    nonVisitedLoop g vs (true, o) fuel (true, p) ≠ Option.none := by
  intro fuel
  induction fuel with
  | zero =>
    intro p hp hd
    by_cases h2 : p < o
    · rw [if_pos h2] at hd; omega
    · rw [if_neg h2] at hd; omega
  | succ f ih =>
    intro p hp hd
    have hval : RefValid g ((true, p) : NodeRef) := by
      simpa [RefValid, BGraph.side] using hp
    have hnx : g.next (true, p) =
        some (true, (p + 1) % g.a.length) := by
      have := next_eq g (true, p) hval
      simpa [BGraph.side] using this
    by_cases hbr : ((true, (p + 1) % g.a.length) : NodeRef) = (true, o) ∨
        ¬vs.visited (true, (p + 1) % g.a.length) = true
    · simp only [nonVisitedLoop, hnx, hbr, if_true]
      intro hcontra
      cases hcontra
    · simp only [nonVisitedLoop, hnx, hbr, if_false]
      push_neg at hbr
      obtain ⟨hne, _⟩ := hbr
      have hpo : (p + 1) % g.a.length ≠ o := by
        intro hcontra
        exact hne (by rw [hcontra])
      have hlt : (p + 1) % g.a.length < g.a.length :=
        Nat.mod_lt _ (by omega)
      apply ih _ hlt
      by_cases hk : p + 1 < g.a.length
      · have hmod : (p + 1) % g.a.length = p + 1 := Nat.mod_eq_of_lt hk
        rw [hmod] at hpo ⊢
        by_cases h2 : p + 1 < o
        · rw [if_pos h2]
          by_cases h1 : p < o
          · rw [if_pos h1] at hd; omega
          · rw [if_neg h1] at hd; omega
        · rw [if_neg h2]
          by_cases h1 : p < o
          · rw [if_pos h1] at hd; omega
          · rw [if_neg h1] at hd; omega
      · have hke : p + 1 = g.a.length := by omega
        have hmod : (p + 1) % g.a.length = 0 := by
          rw [hke, Nat.mod_self]
        rw [hmod] at hpo ⊢
        have hopos : 0 < o := by omega
        rw [if_pos hopos]
        by_cases h1 : p < o
        · rw [if_pos h1] at hd; omega
        · rw [if_neg h1] at hd; omega

/-- Any node the scan loop returns is unvisited, lies on list `a` and is
an actual node. -/
theorem nonVisitedLoop_found (g : BGraph) (vs : VState) (o : Nat) :
    ∀ (fuel p : Nat) (s : NodeRef),
    nonVisitedLoop g vs (true, o) fuel (true, p) = some (some s) →
    vs.visited s = false ∧ s.1 = true ∧ s.2 < g.a.length := by
  intro fuel
  induction fuel with
  | zero => intro p s h; cases h
  | succ f ih =>
    intro p s h
    cases hnx : g.next (true, p) with
    | none => simp [nonVisitedLoop, hnx] at h
    | some nxt =>
      obtain ⟨hp, hnxt⟩ := next_some g true p nxt hnx
      subst hnxt
      have hk : 0 < (g.side true).length := by omega
      by_cases hbr : ((true, (p + 1) % (g.side true).length) :
            NodeRef) = (true, o) ∨
          ¬vs.visited (true, (p + 1) % (g.side true).length) = true
      · simp only [nonVisitedLoop, hnx, hbr, if_true] at h
        by_cases hv : vs.visited
            (true, (p + 1) % (g.side true).length) = true
        · simp [hv] at h
        · have hv2 : vs.visited
              (true, (p + 1) % (g.side true).length) = false := by
            simpa using hv
          rw [hv2] at h
          simp only [Bool.false_eq_true, if_false,
            Option.some.injEq] at h
          subst h
          refine ⟨hv2, rfl, ?_⟩
          have := Nat.mod_lt (p + 1) hk
          simpa [BGraph.side] using this
      · simp only [nonVisitedLoop, hnx, hbr, if_false] at h
        exact ih _ _ h

/-- If the scan loop reports everything visited, then every list-`a`
position strictly beyond the current one is indeed visited. -/
theorem nonVisitedLoop_none_visited (g : BGraph) (vs : VState) :
    ∀ (fuel p : Nat),
    nonVisitedLoop g vs (true, 0) fuel (true, p) = some Option.none →
    ∀ j, p < j → j < g.a.length → vs.visited (true, j) = true := by
  intro fuel
  induction fuel with
  | zero => intro p h; cases h
  | succ f ih =>
    intro p h j hpj hj
    cases hnx : g.next (true, p) with
    | none =>
      have hp : ¬p < (g.side true).length := by
        intro hp
        simp [BGraph.next, hp] at hnx
      have hjlt : p < (g.side true).length := by
        simpa [BGraph.side] using lt_trans hpj hj
      exact absurd hjlt hp
    | some nxt =>
      obtain ⟨hp, hnxt⟩ := next_some g true p nxt hnx
      subst hnxt
      have hk : 0 < (g.side true).length := by omega
      by_cases hbr : ((true, (p + 1) % (g.side true).length) :
            NodeRef) = (true, 0) ∨
          ¬vs.visited (true, (p + 1) % (g.side true).length) = true
      · simp only [nonVisitedLoop, hnx, hbr, if_true] at h
        by_cases hv : vs.visited
            (true, (p + 1) % (g.side true).length) = true
        · rw [hv] at h
          simp only [if_true] at h
          rcases hbr with hbo | hbv
          · have hmod0 : (p + 1) % (g.side true).length = 0 := by
              have := congrArg Prod.snd hbo
              simpa using this
            have hke : p + 1 = (g.side true).length := by
              rcases Nat.lt_or_ge (p + 1) (g.side true).length with
                hlt | hge
              · rw [Nat.mod_eq_of_lt hlt] at hmod0; omega
              · omega
            have : j < (g.side true).length := by
              simpa [BGraph.side] using hj
            omega
          · exact absurd hv hbv
        · have hv2 : vs.visited
              (true, (p + 1) % (g.side true).length) = false := by
            simpa using hv
          rw [hv2] at h
          simp at h
      · simp only [nonVisitedLoop, hnx, hbr, if_false] at h
        push_neg at hbr
        obtain ⟨hne, hvis⟩ := hbr
        by_cases hke : p + 1 < (g.side true).length
        · have hmod : (p + 1) % (g.side true).length = p + 1 :=
            Nat.mod_eq_of_lt hke
          rw [hmod] at h hvis
          by_cases hj2 : j = p + 1
          · subst hj2; exact hvis
          · exact ih _ h j (by omega) hj
        · have hkeq : p + 1 = (g.side true).length := by omega
          have hmod : (p + 1) % (g.side true).length = 0 := by
            rw [hkeq, Nat.mod_self]
          rw [hmod] at hne
          exact absurd rfl hne

theorem nonVisited_ne_none (g : BGraph) (vs : VState)
    (hk : 0 < g.a.length) :
    nonVisited g vs (true, 0) (g.a.length + 1) ≠ Option.none := by
  by_cases hv : vs.visited (true, 0) = true
  · simp only [nonVisited, hv, if_true]
    apply nonVisitedLoop_ne_none g vs 0 hk _ 0 hk
    simp
  · simp [nonVisited, hv]

theorem nonVisited_found (g : BGraph) (vs : VState) (fuel : Nat)
    (s : NodeRef) (hk : 0 < g.a.length)
    (h : nonVisited g vs (true, 0) fuel = some (some s)) :
    vs.visited s = false ∧ s.1 = true ∧ s.2 < g.a.length := by
  by_cases hv : vs.visited (true, 0) = true
  · simp only [nonVisited, hv, if_true] at h
    exact nonVisitedLoop_found g vs 0 fuel 0 s h
  · have hv2 : vs.visited (true, 0) = false := by simpa using hv
    simp only [nonVisited, hv2, Bool.false_eq_true, if_false,
      Option.some.injEq] at h
    subst h
    exact ⟨hv2, rfl, hk⟩

theorem nonVisited_none_all (g : BGraph) (vs : VState) (fuel : Nat)
    (h : nonVisited g vs (true, 0) fuel = some Option.none) :
    ∀ i, i < g.a.length → vs.visited (true, i) = true := by
  by_cases hv : vs.visited (true, 0) = true
  · simp only [nonVisited, hv, if_true] at h
    intro i hi
    cases Nat.eq_zero_or_pos i with
    | inl h0 => subst h0; exact hv
    | inr hpos =>
      exact nonVisitedLoop_none_visited g vs fuel 0 h i hpos hi
  · have hv2 : vs.visited (true, 0) = false := by simpa using hv
    simp [nonVisited, hv2] at h

/-- The outer traversal loop always exits through its normal Ok branch or
an error from the trim primitive, never by fuel exhaustion or the status
panic, when the graph is well-formed and its fuel exceeds the unvisited
count. -/
theorem outerLoop_ok_or_error (selfCurve otherCurve : NurbsCurve)
    (g : BGraph) (hcv : CrossValid g) (hss : StatusSet g)
    (hk : 0 < g.a.length) :
    ∀ (fuel : Nat) (vs : VState) (regions : List Region)
      (paths : List (List NodeRef)), VLen g vs → uc vs < fuel →
    (∃ r n p, outerLoop selfCurve otherCurve g fuel vs regions paths =
      BOut.ok r n p) ∨
    (∃ e, outerLoop selfCurve otherCurve g fuel vs regions paths =
      BOut.error e) := by
  intro fuel
  induction fuel with
  | zero => intro vs regions paths _ hf; omega
  | succ f ih =>
    intro vs regions paths hlen hf
    cases hscn : nonVisited g vs (true, 0) (g.a.length + 1) with
    | none => exact absurd hscn (nonVisited_ne_none g vs hk)
    | some res =>
      cases res with
      | none =>
        left
        exact ⟨regions, g.a, paths, by
          simp only [outerLoop, hscn]⟩
      | some start =>
        obtain ⟨hsv, hside, hslt⟩ :=
          nonVisited_found g vs _ start hk hscn
        have hsval : RefValid g start := by
          cases start with
          | mk sb si =>
            cases sb
            · cases hside
            · simpa [RefValid, BGraph.side] using hslt
        have hwf : uc vs < 2 * (g.a.length + g.b.length) + 2 := by
          have := uc_le_of_vlen g vs hlen
          omega
        obtain ⟨vs2, path, hweq, hlen2, hle2, hlt2⟩ :=
          walkLoop_done g hcv hss _ start vs [] hsval hlen hwf
        have hlt3 : uc vs2 < uc vs := hlt2 hsv
        cases hcc : consumeChunks selfCurve otherCurve g path with
        | error e =>
          right
          exact ⟨e, by simp only [outerLoop, hscn, hweq, hcc]⟩
        | ok spans =>
          have hrec := ih vs2 (regions ++ [⟨spans, []⟩]) (paths ++ [path])
            hlen2 (by omega)
          rcases hrec with ⟨r, n, p, hr⟩ | ⟨e, hr⟩
          · left
            exact ⟨r, n, p, by
              simp only [outerLoop, hscn, hweq, hcc]
              exact hr⟩
          · right
            exact ⟨e, by
              simp only [outerLoop, hscn, hweq, hcc]
              exact hr⟩

theorem seedList_mem_ne_none (n : Nat) :
    ∀ (flag : Bool) (s : Status), s ∈ seedList flag n →
    s ≠ Status.None := by
  induction n with
  | zero => intro flag s h; cases h
  | succ m ih =>
    intro flag s h
    cases h with
    | head => cases flag <;> simp
    | tail _ htail => exact ih (!flag) s htail

theorem map_invert_ne_none (l : List Status)
    (h : ∀ s ∈ l, s ≠ Status.None) :
    ∀ s ∈ l.map Status.invert, s ≠ Status.None := by
  intro s hs
  obtain ⟨t, ht, rfl⟩ := List.mem_map.mp hs
  have := h t ht
  cases t <;> simp_all [Status.invert]

theorem applyOpInversion_seed_fst_ne_none (op : BooleanOperation)
    (aF bF : Bool) (k : Nat) :
    ∀ s ∈ (applyOpInversion op (seedList aF k) (seedList bF k)).1,
    s ≠ Status.None := by
  cases op <;>
    simp only [applyOpInversion] <;>
    first
      | exact map_invert_ne_none _ (seedList_mem_ne_none k aF)
      | exact seedList_mem_ne_none k aF

theorem applyOpInversion_seed_snd_ne_none (op : BooleanOperation)
    (aF bF : Bool) (k : Nat) :
    ∀ s ∈ (applyOpInversion op (seedList aF k) (seedList bF k)).2,
    s ≠ Status.None := by
  cases op <;>
    simp only [applyOpInversion] <;>
    first
      | exact map_invert_ne_none _ (seedList_mem_ne_none k bF)
      | exact seedList_mem_ne_none k bF

/-- Every actual node of a built graph has an Enter or Exit status: the
seeding pass covers both lists and the inversion never produces the unset
status. -/
theorem buildGraph_statusSet (records : List IntersectionRecord)
    (aFlag bFlag : Bool) (op : BooleanOperation) :
    StatusSet (buildGraph records aFlag bFlag op) := by
  intro r hval
  cases r with
  | mk sb si =>
    have hget := List.get?_eq_get (l := ((buildGraph records aFlag bFlag
      op).side sb)) (n := si) hval
    have hmem : ((buildGraph records aFlag bFlag op).side sb).get
        ⟨si, hval⟩ ∈ (buildGraph records aFlag bFlag op).side sb :=
      List.get_mem _ _ hval
    have hstat : (buildGraph records aFlag bFlag op).status (sb, si) =
        (((buildGraph records aFlag bFlag op).side sb).get
          ⟨si, hval⟩).status := by
      unfold BGraph.status BGraph.node?
      rw [hget]
      rfl
    rw [hstat]
    cases sb
    · have hmem2 : (((buildGraph records aFlag bFlag op).side
          false).get ⟨si, hval⟩).status ∈
          (buildGraph records aFlag bFlag op).b.map BNode.status :=
        List.mem_map_of_mem _ hmem
      rw [buildGraph_b_statuses] at hmem2
      exact applyOpInversion_seed_snd_ne_none op aFlag bFlag _ _ hmem2
    · have hmem2 : (((buildGraph records aFlag bFlag op).side
          true).get ⟨si, hval⟩).status ∈
          (buildGraph records aFlag bFlag op).a.map BNode.status :=
        List.mem_map_of_mem _ hmem
      rw [buildGraph_a_statuses] at hmem2
      exact applyOpInversion_seed_fst_ne_none op aFlag bFlag _ _ hmem2

theorem buildGraph_a_neighbor_lt (records : List IntersectionRecord)
    (aFlag bFlag : Bool) (op : BooleanOperation) :
    ∀ n ∈ (buildGraph records aFlag bFlag op).a, ∀ j,
    n.neighbor = some j → j < records.length := by
  intro n hn j hj
  simp only [buildGraph] at hn
  obtain ⟨p, _, rfl⟩ := List.mem_map.mp hn
  simp only at hj
  have := (List.findIdx?_eq_some_iff_getElem.mp hj).1
  have hlen : (sortedBy (fun x y => decide (x.2.b ≤ y.2.b))
      ((List.range records.length).zip records)).length =
      records.length := by
    simp [sortedBy_length, List.length_zip]
  omega

theorem buildGraph_b_neighbor_lt (records : List IntersectionRecord)
    (aFlag bFlag : Bool) (op : BooleanOperation) :
    ∀ n ∈ (buildGraph records aFlag bFlag op).b, ∀ j,
    n.neighbor = some j → j < records.length := by
  intro n hn j hj
  simp only [buildGraph] at hn
  obtain ⟨p, _, rfl⟩ := List.mem_map.mp hn
  simp only at hj
  have := (List.findIdx?_eq_some_iff_getElem.mp hj).1
  have hlen : (sortedBy (fun x y => decide (x.2.a ≤ y.2.a))
      ((List.range records.length).zip records)).length =
      records.length := by
    simp [sortedBy_length, List.length_zip]
  omega

/-- Every cross link of a built graph leads to an actual node of the
other list. -/
theorem buildGraph_crossValid (records : List IntersectionRecord)
    (aFlag bFlag : Bool) (op : BooleanOperation) :
    CrossValid (buildGraph records aFlag bFlag op) := by
  intro r r2 h
  cases hn : (buildGraph records aFlag bFlag op).node? r with
  | none => simp [BGraph.neighbor, hn] at h
  | some n =>
    cases hnb : n.neighbor with
    | none => simp [BGraph.neighbor, hn, hnb] at h
    | some j =>
      have hr2 : r2 = (!r.1, j) := by
        simp [BGraph.neighbor, hn, hnb] at h
        exact h.symm
      subst hr2
      have hmem : n ∈ (buildGraph records aFlag bFlag op).side r.1 :=
        List.get?_mem hn
      have hjlt : j < records.length := by
        cases hside : r.1
        · rw [hside] at hmem
          exact buildGraph_b_neighbor_lt records aFlag bFlag op n
            (by simpa [BGraph.side] using hmem) j hnb
        · rw [hside] at hmem
          exact buildGraph_a_neighbor_lt records aFlag bFlag op n
            (by simpa [BGraph.side] using hmem) j hnb
      cases hside : r.1
      · have : ((buildGraph records aFlag bFlag op).side true).length =
            records.length := by
          simpa [BGraph.side] using
            buildGraph_a_length records aFlag bFlag op
        simp only [RefValid, hside, Bool.not_false]
        omega
      · have : ((buildGraph records aFlag bFlag op).side false).length =
            records.length := by
          simpa [BGraph.side] using
            buildGraph_b_length records aFlag bFlag op
        simp only [RefValid, hside, Bool.not_true]
        omega

theorem boolean_ok_or_error (selfCurve otherCurve : NurbsCurve)
    (op : BooleanOperation) (records : List IntersectionRecord)
    (aContains bContains : Bool) :
    (∃ r n p, boolean selfCurve otherCurve op records aContains
      bContains = BOut.ok r n p) ∨
    (∃ e, boolean selfCurve otherCurve op records aContains bContains =
      BOut.error e) := by
  unfold boolean
  by_cases hemp : records.isEmpty = true
  · right
    exact ⟨"Todo: no intersections case", by simp [hemp]⟩
  · have hemp2 : records.isEmpty = false := by simpa using hemp
    have hne : records ≠ [] := by
      cases records
      · simp at hemp2
      · simp
    have hpos : 0 < records.length := by
      cases records
      · exact absurd rfl hne
      · simp
    have hk : 0 <
        (buildGraph records (!aContains) (!bContains) op).a.length := by
      rw [buildGraph_a_length]
      exact hpos
    have hvlen : VLen (buildGraph records (!aContains) (!bContains) op)
        ⟨List.replicate
          (buildGraph records (!aContains) (!bContains) op).a.length
          false,
         List.replicate
          (buildGraph records (!aContains) (!bContains) op).b.length
          false⟩ := by
      constructor <;> simp
    have huc : uc ⟨List.replicate
          (buildGraph records (!aContains) (!bContains) op).a.length
          false,
         List.replicate
          (buildGraph records (!aContains) (!bContains) op).b.length
          false⟩ < 2 * records.length + 2 := by
      have ha := buildGraph_a_length records (!aContains) (!bContains) op
      have hb := buildGraph_b_length records (!aContains) (!bContains) op
      simp [uc, ha, hb]
      omega
    have := outerLoop_ok_or_error selfCurve otherCurve
      (buildGraph records (!aContains) (!bContains) op)
      (buildGraph_crossValid records (!aContains) (!bContains) op)
      (buildGraph_statusSet records (!aContains) (!bContains) op) hk
      (2 * records.length + 2) _ [] [] hvlen huc
    simpa [hemp2] using this

/-- Claim C9: for every oracle output, graph construction and the
traversal loops terminate — the fueled embedding of the scan loop, the
path walk and the outer loop never exhausts its fuel, because every walk
iteration visits an unvisited node and the scan is bounded by the cyclic
list length. -/
theorem C9_termination (selfCurve otherCurve : NurbsCurve)
    (op : BooleanOperation) (records : List IntersectionRecord)
    (aContains bContains : Bool) :
    boolean selfCurve otherCurve op records aContains bContains ≠
      BOut.fuelOut := by
  rcases boolean_ok_or_error selfCurve otherCurve op records aContains
    bContains with ⟨r, n, p, h⟩ | ⟨e, h⟩ <;> simp [h]

/-- Claim C10: the `todo!()` panic branch for an unset node status is
unreachable — status seeding assigns Enter or Exit to every node of both
lists and the inversion only swaps the two, so the traversal never
matches Status.None and the boolean call never panics. -/
theorem C10_no_status_panic (selfCurve otherCurve : NurbsCurve)
    (op : BooleanOperation) (records : List IntersectionRecord)
    (aContains bContains : Bool) :
    boolean selfCurve otherCurve op records aContains bContains ≠
      BOut.panicked := by
  rcases boolean_ok_or_error selfCurve otherCurve op records aContains
    bContains with ⟨r, n, p, h⟩ | ⟨e, h⟩ <;> simp [h]

/-! ### The partner/step permutation structure of a well-formed graph

On a graph whose statuses strictly alternate (cyclically) the
status-directed link pairs each Enter node with the Exit node after it:
following it is an involution `partnerRef`.  Jumping from the partner
across the cross link is `stepRef`; its inverse is `stepInvRef`. -/

theorem mod_succ_eq (i n : Nat) (h : i < n) :
    (i + 1) % n = if i + 1 = n then 0 else i + 1 := by
  by_cases he : i + 1 = n
  · rw [if_pos he, he, Nat.mod_self]
  · rw [if_neg he, Nat.mod_eq_of_lt (by omega)]

theorem mod_pred_eq (i n : Nat) (h : i < n) :
    (i + n - 1) % n = if i = 0 then n - 1 else i - 1 := by
  by_cases he : i = 0
  · rw [if_pos he, he, Nat.zero_add, Nat.mod_eq_of_lt (by omega)]
  · rw [if_neg he]
    have : i + n - 1 = (i - 1) + n := by omega
    rw [this, Nat.add_mod_right, Nat.mod_eq_of_lt (by omega)]

theorem mod_pred_succ (i n : Nat) (h : i < n) :
    ((i + n - 1) % n + 1) % n = i := by
  rw [mod_pred_eq i n h]
  by_cases he : i = 0
  · rw [if_pos he, he]
    have : n - 1 + 1 = n := by omega
    rw [this, Nat.mod_self]
  · rw [if_neg he]
    have : i - 1 + 1 = i := by omega
    rw [this, Nat.mod_eq_of_lt h]

theorem mod_succ_pred (i n : Nat) (h : i < n) :
    ((i + 1) % n + n - 1) % n = i := by
  rw [mod_succ_eq i n h]
  by_cases he : i + 1 = n
  · rw [if_pos he]
    have h0 : 0 + n - 1 = n - 1 := by omega
    rw [h0, Nat.mod_eq_of_lt (by omega)]
    omega
  · rw [if_neg he]
    rw [mod_pred_eq (i + 1) n (by omega), if_neg (by omega)]
    omega

/-- The status-directed same-list move of the walk: an Enter node hands
its `next` position, an Exit node its `prev` position. -/
def partnerRef (g : BGraph) (r : NodeRef) : NodeRef :=
  match g.status r with
  | Status.Enter => (r.1, (r.2 + 1) % (g.side r.1).length)
  | _ => (r.1, (r.2 + (g.side r.1).length - 1) % (g.side r.1).length)

/-- One full walk iteration: the cross partner of the status-directed
neighbor. -/
def stepRef (g : BGraph) (r : NodeRef) : NodeRef :=
  (g.neighbor (partnerRef g r)).getD (true, 0)

/-- The inverse of `stepRef`: cross first, then the status-directed
move. -/
def stepInvRef (g : BGraph) (r : NodeRef) : NodeRef :=
  partnerRef g ((g.neighbor r).getD (true, 0))

/-- Well-formedness hypotheses under which the traversal is a clean walk
along the orbits of `stepRef`: both lists have at least two nodes, cross
links are total, valid and mutually inverse, every node carries an
Enter/Exit status, and statuses alternate cyclically. -/
structure TravWF (g : BGraph) : Prop where
  hk2a : 2 ≤ g.a.length
  hk2b : 2 ≤ g.b.length
  cross_some : ∀ r, RefValid g r →
    ∃ r2, g.neighbor r = some r2 ∧ RefValid g r2
  cross_inv : ∀ r r2, g.neighbor r = some r2 → g.neighbor r2 = some r
  status_ne : StatusSet g
  status_flip : ∀ r, RefValid g r →
    g.status (r.1, (r.2 + 1) % (g.side r.1).length) =
      Status.invert (g.status r)

theorem partnerRef_side (g : BGraph) (r : NodeRef) :
    (partnerRef g r).1 = r.1 := by
  unfold partnerRef
  cases g.status r <;> rfl

theorem partnerRef_valid (g : BGraph) (r : NodeRef)
    (h : RefValid g r) : RefValid g (partnerRef g r) := by
  have hk : 0 < (g.side r.1).length := by
    exact Nat.lt_of_le_of_lt (Nat.zero_le _) h
  unfold partnerRef
  cases g.status r <;> exact Nat.mod_lt _ hk

theorem partnerRef_status (g : BGraph) (W : TravWF g) (r : NodeRef)
    (h : RefValid g r) :
    g.status (partnerRef g r) = Status.invert (g.status r) := by
  cases hst : g.status r with
  | None => exact absurd hst (W.status_ne r h)
  | Enter =>
    have := W.status_flip r h
    rw [hst] at this
    unfold partnerRef
    rw [hst]
    exact this
  | Exit =>
    have hq : RefValid g
        (r.1, (r.2 + (g.side r.1).length - 1) % (g.side r.1).length) := by
      have hk : 0 < (g.side r.1).length :=
        Nat.lt_of_le_of_lt (Nat.zero_le _) h
      exact Nat.mod_lt _ hk
    have hflip := W.status_flip _ hq
    simp only at hflip
    rw [mod_pred_succ r.2 (g.side r.1).length h] at hflip
    unfold partnerRef
    rw [hst]
    simp only
    cases hq2 : g.status
        (r.1, (r.2 + (g.side r.1).length - 1) % (g.side r.1).length) with
    | None => exact absurd hq2 (W.status_ne _ hq)
    | Enter => rfl
    | Exit =>
      rw [hq2] at hflip
      rw [hst] at hflip
      cases hflip

theorem partnerRef_enter (g : BGraph) (r : NodeRef)
    (h : g.status r = Status.Enter) :
    partnerRef g r = (r.1, (r.2 + 1) % (g.side r.1).length) := by
  unfold partnerRef
  rw [h]

theorem partnerRef_exit (g : BGraph) (r : NodeRef)
    (h : g.status r = Status.Exit) :
    partnerRef g r =
      (r.1, (r.2 + (g.side r.1).length - 1) % (g.side r.1).length) := by
  unfold partnerRef
  rw [h]

theorem partnerRef_partnerRef (g : BGraph) (W : TravWF g) (r : NodeRef)
    (h : RefValid g r) : partnerRef g (partnerRef g r) = r := by
  have hps := partnerRef_status g W r h
  cases hst : g.status r with
  | None => exact absurd hst (W.status_ne r h)
  | Enter =>
    rw [hst] at hps
    simp only [Status.invert] at hps
    have h1 := partnerRef_enter g r hst
    rw [h1] at hps
    have h2 := partnerRef_exit g _ hps
    rw [h1, h2]
    simp only
    rw [mod_succ_pred r.2 (g.side r.1).length h]
  | Exit =>
    rw [hst] at hps
    simp only [Status.invert] at hps
    have h1 := partnerRef_exit g r hst
    rw [h1] at hps
    have h2 := partnerRef_enter g _ hps
    rw [h1, h2]
    simp only
    rw [mod_pred_succ r.2 (g.side r.1).length h]

theorem partnerRef_ne (g : BGraph) (W : TravWF g) (r : NodeRef)
    (h : RefValid g r) : partnerRef g r ≠ r := by
  have hk2 : 2 ≤ (g.side r.1).length := by
    cases hs : r.1
    · simpa [BGraph.side] using W.hk2b
    · simpa [BGraph.side] using W.hk2a
  intro hcontra
  cases hst : g.status r with
  | None => exact absurd hst (W.status_ne r h)
  | Enter =>
    have h1 : partnerRef g r = (r.1, (r.2 + 1) % (g.side r.1).length) := by
      unfold partnerRef; rw [hst]
    rw [h1] at hcontra
    have h2 : (r.2 + 1) % (g.side r.1).length = r.2 := by
      have := congrArg Prod.snd hcontra
      simpa using this
    rw [mod_succ_eq r.2 (g.side r.1).length h] at h2
    by_cases he : r.2 + 1 = (g.side r.1).length
    · rw [if_pos he] at h2; omega
    · rw [if_neg he] at h2; omega
  | Exit =>
    have h1 : partnerRef g r =
        (r.1, (r.2 + (g.side r.1).length - 1) % (g.side r.1).length) := by
      unfold partnerRef; rw [hst]
    rw [h1] at hcontra
    have h2 : (r.2 + (g.side r.1).length - 1) % (g.side r.1).length =
        r.2 := by
      have := congrArg Prod.snd hcontra
      simpa using this
    rw [mod_pred_eq r.2 (g.side r.1).length h] at h2
    by_cases he : r.2 = 0
    · rw [if_pos he] at h2; omega
    · rw [if_neg he] at h2; omega

theorem neighbor_side (g : BGraph) (r r2 : NodeRef)
    (h : g.neighbor r = some r2) : r2.1 = !r.1 := by
  unfold BGraph.neighbor at h
  cases hb : (g.node? r).bind BNode.neighbor with
  | none => rw [hb] at h; cases h
  | some j =>
    rw [hb] at h
    simp only [Option.map_some', Option.some.injEq] at h
    rw [← h]

theorem stepRef_spec (g : BGraph) (W : TravWF g) (r : NodeRef)
    (h : RefValid g r) :
    g.neighbor (partnerRef g r) = some (stepRef g r) ∧
    RefValid g (stepRef g r) ∧ (stepRef g r).1 = !r.1 := by
  obtain ⟨r2, hn, hv2⟩ := W.cross_some _ (partnerRef_valid g r h)
  have hs : stepRef g r = r2 := by
    unfold stepRef; rw [hn]; rfl
  refine ⟨by rw [hs]; exact hn, by rw [hs]; exact hv2, ?_⟩
  rw [hs, neighbor_side g _ _ hn, partnerRef_side]

theorem stepRef_valid (g : BGraph) (W : TravWF g) (r : NodeRef)
    (h : RefValid g r) : RefValid g (stepRef g r) :=
  (stepRef_spec g W r h).2.1

theorem stepRef_side (g : BGraph) (W : TravWF g) (r : NodeRef)
    (h : RefValid g r) : (stepRef g r).1 = !r.1 :=
  (stepRef_spec g W r h).2.2

theorem stepInvRef_spec (g : BGraph) (W : TravWF g) (r : NodeRef)
    (h : RefValid g r) :
    (∃ r2, g.neighbor r = some r2 ∧
      stepInvRef g r = partnerRef g r2 ∧ RefValid g r2) ∧
    RefValid g (stepInvRef g r) ∧ (stepInvRef g r).1 = !r.1 := by
  obtain ⟨r2, hn, hv2⟩ := W.cross_some _ h
  have hs : stepInvRef g r = partnerRef g r2 := by
    unfold stepInvRef; rw [hn]; rfl
  refine ⟨⟨r2, hn, hs, hv2⟩, ?_, ?_⟩
  · rw [hs]; exact partnerRef_valid g r2 hv2
  · rw [hs, partnerRef_side, neighbor_side g _ _ hn]

theorem stepInvRef_valid (g : BGraph) (W : TravWF g) (r : NodeRef)
    (h : RefValid g r) : RefValid g (stepInvRef g r) :=
  (stepInvRef_spec g W r h).2.1

theorem stepRef_stepInvRef (g : BGraph) (W : TravWF g) (r : NodeRef)
    (h : RefValid g r) : stepRef g (stepInvRef g r) = r := by
  obtain ⟨⟨r2, hn, hs, hv2⟩, _, _⟩ := stepInvRef_spec g W r h
  rw [hs]
  unfold stepRef
  rw [partnerRef_partnerRef g W r2 hv2, W.cross_inv r r2 hn]
  rfl

theorem stepInvRef_stepRef (g : BGraph) (W : TravWF g) (r : NodeRef)
    (h : RefValid g r) : stepInvRef g (stepRef g r) = r := by
  obtain ⟨hn, _, _⟩ := stepRef_spec g W r h
  unfold stepInvRef
  rw [W.cross_inv _ _ hn]
  exact partnerRef_partnerRef g W r h

theorem partnerRef_stepRef (g : BGraph) (r : NodeRef) :
    partnerRef g (stepRef g r) = stepInvRef g (partnerRef g r) := rfl

theorem stepRef_iterate_valid (g : BGraph) (W : TravWF g) (s : NodeRef)
    (h : RefValid g s) :
    ∀ m, RefValid g ((stepRef g)^[m] s) := by
  intro m
  induction m with
  | zero => simpa using h
  | succ m ih =>
    rw [Function.iterate_succ_apply']
    exact stepRef_valid g W _ ih

theorem stepInvRef_iterate_valid (g : BGraph) (W : TravWF g)
    (s : NodeRef) (h : RefValid g s) :
    ∀ m, RefValid g ((stepInvRef g)^[m] s) := by
  intro m
  induction m with
  | zero => simpa using h
  | succ m ih =>
    rw [Function.iterate_succ_apply']
    exact stepInvRef_valid g W _ ih

theorem stepRef_iterate_side (g : BGraph) (W : TravWF g) (s : NodeRef)
    (h : RefValid g s) :
    ∀ m, ((stepRef g)^[m] s).1 =
      if m % 2 = 0 then s.1 else !s.1 := by
  intro m
  induction m with
  | zero => simp
  | succ m ih =>
    rw [Function.iterate_succ_apply',
      stepRef_side g W _ (stepRef_iterate_valid g W s h m), ih]
    rcases Nat.even_or_odd m with he | ho
    · have h0 : m % 2 = 0 := Nat.even_iff.mp he
      have h1 : (m + 1) % 2 = 1 := by omega
      simp [h0, h1]
    · have h0 : m % 2 = 1 := Nat.odd_iff.mp ho
      have h1 : (m + 1) % 2 = 0 := by omega
      simp [h0, h1]

theorem partner_iterate (g : BGraph) (_W : TravWF g) (s : NodeRef)
    (_h : RefValid g s) :
    ∀ m, partnerRef g ((stepRef g)^[m] s) =
      (stepInvRef g)^[m] (partnerRef g s) := by
  intro m
  induction m with
  | zero => simp
  | succ m ih =>
    rw [Function.iterate_succ_apply', partnerRef_stepRef, ih]
    exact (Function.iterate_succ_apply' (stepInvRef g) m
      (partnerRef g s)).symm

theorem stepInv_iterate_cancel (g : BGraph) (W : TravWF g)
    (s : NodeRef) (h : RefValid g s) :
    ∀ a b, a ≤ b →
    (stepInvRef g)^[a] ((stepRef g)^[b] s) = (stepRef g)^[b - a] s := by
  intro a
  induction a with
  | zero => intro b _; simp
  | succ a ih =>
    intro b hab
    have hb : 0 < b := by omega
    obtain ⟨b2, rfl⟩ : ∃ b2, b = b2 + 1 := ⟨b - 1, by omega⟩
    rw [Function.iterate_succ_apply]
    rw [show (stepRef g)^[b2 + 1] s = stepRef g ((stepRef g)^[b2] s) from
      Function.iterate_succ_apply' _ _ _]
    rw [stepInvRef_stepRef g W _ (stepRef_iterate_valid g W s h b2)]
    rw [ih b2 (by omega)]
    congr 1
    omega

theorem step_iterate_cancel (g : BGraph) (W : TravWF g) (x : NodeRef)
    (h : RefValid g x) :
    ∀ a, (stepRef g)^[a] ((stepInvRef g)^[a] x) = x := by
  intro a
  induction a with
  | zero => simp
  | succ a ih =>
    rw [show (stepInvRef g)^[a + 1] x =
      stepInvRef g ((stepInvRef g)^[a] x) from
      Function.iterate_succ_apply' _ _ _]
    rw [Function.iterate_succ_apply]
    rw [stepRef_stepInvRef g W _ (stepInvRef_iterate_valid g W x h a)]
    exact ih

/-- A partner of one walk current is never another walk current: that
would force the partner involution to have a fixed point halfway along
the orbit. -/
theorem no_partner_hit (g : BGraph) (W : TravWF g) (s : NodeRef)
    (hval : RefValid g s) (i j : Nat) :
    partnerRef g ((stepRef g)^[i] s) ≠ (stepRef g)^[j] s := by
  intro hcontra
  rw [partner_iterate g W s hval i] at hcontra
  have hps : partnerRef g s = (stepRef g)^[i + j] s := by
    calc partnerRef g s
        = (stepRef g)^[i] ((stepInvRef g)^[i] (partnerRef g s)) :=
          (step_iterate_cancel g W _ (partnerRef_valid g s hval) i).symm
      _ = (stepRef g)^[i] ((stepRef g)^[j] s) := by rw [hcontra]
      _ = (stepRef g)^[i + j] s :=
          (Function.iterate_add_apply _ i j s).symm
  have hparity : (i + j) % 2 = 0 := by
    have h1 : (partnerRef g s).1 = s.1 := partnerRef_side g s
    have h2 := stepRef_iterate_side g W s hval (i + j)
    rw [hps] at h1
    rw [h2] at h1
    by_cases hp : (i + j) % 2 = 0
    · exact hp
    · rw [if_neg hp] at h1
      cases s.1 <;> simp at h1
  have hhalf : partnerRef g ((stepRef g)^[(i + j) / 2] s) =
      (stepRef g)^[(i + j) / 2] s := by
    rw [partner_iterate g W s hval, hps,
      stepInv_iterate_cancel g W s hval ((i + j) / 2) (i + j) (by omega)]
    congr 1
    omega
  exact partnerRef_ne g W _
    (stepRef_iterate_valid g W s hval ((i + j) / 2)) hhalf

theorem iterate_distinct (g : BGraph) (W : TravWF g) (s : NodeRef)
    (hval : RefValid g s) (N : Nat)
    (hmin : ∀ m, 0 < m → m < N → (stepRef g)^[m] s ≠ s) :
    ∀ i j, i < j → j < N →
    (stepRef g)^[i] s ≠ (stepRef g)^[j] s := by
  intro i j hij hjN hcontra
  have h1 : (stepRef g)^[j - i] s = s := by
    calc (stepRef g)^[j - i] s
        = (stepInvRef g)^[i] ((stepRef g)^[j] s) :=
          (stepInv_iterate_cancel g W s hval i j (by omega)).symm
      _ = (stepInvRef g)^[i] ((stepRef g)^[i] s) := by rw [hcontra]
      _ = (stepRef g)^[i - i] s :=
          stepInv_iterate_cancel g W s hval i i (le_refl i)
      _ = s := by simp
  exact hmin (j - i) (by omega) (by omega) h1

/-- Every valid reference returns to itself under iteration of the step
permutation within the total node count. -/
theorem exists_period (g : BGraph) (W : TravWF g) (s : NodeRef)
    (hval : RefValid g s) :
    ∃ N, 0 < N ∧ N ≤ g.a.length + g.b.length ∧
      (stepRef g)^[N] s = s := by
  classical
  set t : Finset NodeRef :=
    ((Finset.range g.a.length).image fun i => ((true, i) : NodeRef)) ∪
    ((Finset.range g.b.length).image fun i => ((false, i) : NodeRef))
    with ht
  have hcard : t.card < (Finset.range
      (g.a.length + g.b.length + 1)).card := by
    have h1 := Finset.card_union_le
      ((Finset.range g.a.length).image fun i => ((true, i) : NodeRef))
      ((Finset.range g.b.length).image fun i => ((false, i) : NodeRef))
    have h2 := Finset.card_image_le (s := Finset.range g.a.length)
      (f := fun i => ((true, i) : NodeRef))
    have h3 := Finset.card_image_le (s := Finset.range g.b.length)
      (f := fun i => ((false, i) : NodeRef))
    rw [← ht] at h1
    rw [Finset.card_range]
    rw [Finset.card_range] at h2
    rw [Finset.card_range] at h3
    omega
  have hmaps : ∀ m ∈ Finset.range (g.a.length + g.b.length + 1),
      (stepRef g)^[m] s ∈ t := by
    intro m _
    have hv := stepRef_iterate_valid g W s hval m
    rcases hr : (stepRef g)^[m] s with ⟨sb, si⟩
    rw [hr] at hv
    cases sb
    · apply Finset.mem_union_right
      apply Finset.mem_image_of_mem
      rw [Finset.mem_range]
      simpa [RefValid, BGraph.side] using hv
    · apply Finset.mem_union_left
      apply Finset.mem_image_of_mem
      rw [Finset.mem_range]
      simpa [RefValid, BGraph.side] using hv
  obtain ⟨x, hx, y, hy, hxy, hfeq⟩ :=
    Finset.exists_ne_map_eq_of_card_lt_of_maps_to hcard hmaps
  rw [Finset.mem_range] at hx hy
  rcases Nat.lt_or_ge x y with hlt | hge
  · refine ⟨y - x, by omega, by omega, ?_⟩
    calc (stepRef g)^[y - x] s
        = (stepInvRef g)^[x] ((stepRef g)^[y] s) :=
          (stepInv_iterate_cancel g W s hval x y (by omega)).symm
      _ = (stepInvRef g)^[x] ((stepRef g)^[x] s) := by rw [hfeq]
      _ = s := by
          rw [stepInv_iterate_cancel g W s hval x x (le_refl x)]
          simp
  · have hlt2 : y < x := by omega
    refine ⟨x - y, by omega, by omega, ?_⟩
    calc (stepRef g)^[x - y] s
        = (stepInvRef g)^[y] ((stepRef g)^[x] s) :=
          (stepInv_iterate_cancel g W s hval y x (by omega)).symm
      _ = (stepInvRef g)^[y] ((stepRef g)^[y] s) := by rw [hfeq]
      _ = s := by
          rw [stepInv_iterate_cancel g W s hval y y (le_refl y)]
          simp

theorem getD_set_true_self (l : List Bool) (i : Nat) (h : i < l.length) :
    (l.set i true).getD i false = true := by
  induction l generalizing i with
  | nil => simp at h
  | cons b bs ih =>
    cases i with
    | zero => rfl
    | succ j => exact ih j (by simpa using h)

theorem getD_set_true_ne (l : List Bool) (i j : Nat) (hne : i ≠ j) :
    (l.set i true).getD j false = l.getD j false := by
  induction l generalizing i j with
  | nil => simp
  | cons b bs ih =>
    cases i with
    | zero =>
      cases j with
      | zero => exact absurd rfl hne
      | succ j2 => rfl
    | succ i2 =>
      cases j with
      | zero => rfl
      | succ j2 => exact ih i2 j2 (by omega)

theorem visited_visit_self (g : BGraph) (vs : VState) (r : NodeRef)
    (hval : RefValid g r) (hlen : VLen g vs) :
    (vs.visit r).visited r = true := by
  cases r with
  | mk b i =>
    cases b
    · have hi : i < vs.vb.length := by
        have h2 := hlen.2
        simp [RefValid, BGraph.side] at hval
        omega
      simpa [VState.visit, VState.visited] using
        getD_set_true_self vs.vb i hi
    · have hi : i < vs.va.length := by
        have h1 := hlen.1
        simp [RefValid, BGraph.side] at hval
        omega
      simpa [VState.visit, VState.visited] using
        getD_set_true_self vs.va i hi

theorem visited_visit_ne (vs : VState) (r q : NodeRef) (hne : q ≠ r) :
    (vs.visit r).visited q = vs.visited q := by
  cases r with
  | mk rb ri =>
    cases q with
    | mk qb qi =>
      cases rb <;> cases qb
      · have hij : ri ≠ qi := fun hcontra => hne (by rw [hcontra])
        show (vs.vb.set ri true).getD qi false = vs.vb.getD qi false
        exact getD_set_true_ne vs.vb ri qi hij
      · rfl
      · rfl
      · have hij : ri ≠ qi := fun hcontra => hne (by rw [hcontra])
        show (vs.va.set ri true).getD qi false = vs.va.getD qi false
        exact getD_set_true_ne vs.va ri qi hij

/-- The unvisited node set is closed under the partner, step and inverse
step moves. -/
def UClosed (g : BGraph) (vs : VState) : Prop :=
  ∀ r, RefValid g r → vs.visited r = false →
    vs.visited (partnerRef g r) = false ∧
    vs.visited (stepRef g r) = false ∧
    vs.visited (stepInvRef g r) = false

theorem unvisited_iterate (g : BGraph) (W : TravWF g) (s : NodeRef)
    (hval : RefValid g s) (vs : VState) (hU : UClosed g vs)
    (hsv : vs.visited s = false) :
    ∀ j, vs.visited ((stepRef g)^[j] s) = false ∧
      vs.visited (partnerRef g ((stepRef g)^[j] s)) = false := by
  intro j
  induction j with
  | zero => exact ⟨hsv, (hU s hval hsv).1⟩
  | succ j ih =>
    have hjv := stepRef_iterate_valid g W s hval j
    have hstep : vs.visited ((stepRef g)^[j + 1] s) = false := by
      rw [Function.iterate_succ_apply']
      exact (hU _ hjv ih.1).2.1
    refine ⟨hstep, ?_⟩
    exact (hU _ (stepRef_iterate_valid g W s hval (j + 1)) hstep).1

/-- Mark a whole list of nodes visited, in order. -/
def markList (vs : VState) (l : List NodeRef) : VState :=
  l.foldl VState.visit vs

theorem markList_append (vs : VState) (l1 l2 : List NodeRef) :
    markList vs (l1 ++ l2) = markList (markList vs l1) l2 :=
  List.foldl_append _ _ _ _

theorem vlen_markList (g : BGraph) (vs : VState) (l : List NodeRef)
    (h : VLen g vs) : VLen g (markList vs l) := by
  induction l generalizing vs with
  | nil => exact h
  | cons x xs ih => exact ih _ (vlen_visit g vs x h)

theorem visited_markList (g : BGraph) (vs : VState) (l : List NodeRef)
    (hlen : VLen g vs) (hl : ∀ x ∈ l, RefValid g x) (q : NodeRef) :
    ((markList vs l).visited q = true ↔
      vs.visited q = true ∨ q ∈ l) := by
  induction l generalizing vs with
  | nil => simp [markList]
  | cons x xs ih =>
    have hx : RefValid g x := hl x (List.mem_cons_self _ _)
    have hstep : markList vs (x :: xs) = markList (vs.visit x) xs := rfl
    rw [hstep, ih (vs.visit x) (vlen_visit g vs x hlen)
      (fun y hy => hl y (List.mem_cons_of_mem x hy))]
    by_cases hq : q = x
    · subst hq
      constructor
      · intro _
        exact Or.inr (List.mem_cons_self _ _)
      · intro _
        exact Or.inl (visited_visit_self g vs q hx hlen)
    · rw [visited_visit_ne vs x q hq]
      constructor
      · rintro (h | h)
        · exact Or.inl h
        · exact Or.inr (List.mem_cons_of_mem x h)
      · rintro (h | h)
        · exact Or.inl h
        · rcases List.mem_cons.mp h with h2 | h2
          · exact absurd h2 hq
          · exact Or.inr h2

theorem uc_markList_le (vs : VState) (l : List NodeRef) :
    uc (markList vs l) ≤ uc vs := by
  induction l generalizing vs with
  | nil => exact le_refl _
  | cons x xs ih =>
    calc uc (markList (vs.visit x) xs) ≤ uc (vs.visit x) := ih _
      _ ≤ uc vs := uc_visit_le vs x

theorem uc_markList_lt (g : BGraph) (vs : VState) (l : List NodeRef)
    (r : NodeRef) (hlen : VLen g vs) (hr : r ∈ l) (hval : RefValid g r)
    (hunv : vs.visited r = false) : uc (markList vs l) < uc vs := by
  induction l generalizing vs with
  | nil => cases hr
  | cons x xs ih =>
    by_cases hrx : r = x
    · subst hrx
      calc uc (markList (vs.visit r) xs) ≤ uc (vs.visit r) :=
            uc_markList_le _ _
        _ < uc vs := uc_visit_lt g vs r hval hlen hunv
    · rcases List.mem_cons.mp hr with h2 | h2
      · exact absurd h2 hrx
      · have h3 : (vs.visit x).visited r = false := by
          rw [visited_visit_ne vs x r hrx]
          exact hunv
        calc uc (markList (vs.visit x) xs) < uc (vs.visit x) :=
              ih _ (vlen_visit g vs x hlen) h2 h3
          _ ≤ uc vs := uc_visit_le vs x

/-- The node sequence a walk starting at iterate `j` of `s` is expected
to push: currents alternating with their partners, for `m` iterations. -/
def expPathFrom (g : BGraph) (s : NodeRef) : Nat → Nat → List NodeRef
  | _, 0 => []
  | j, m + 1 =>
    (stepRef g)^[j] s :: partnerRef g ((stepRef g)^[j] s) ::
      expPathFrom g s (j + 1) m

/-- The full expected walk path from `s`, for `m` iterations. -/
def expPath (g : BGraph) (s : NodeRef) (m : Nat) : List NodeRef :=
  expPathFrom g s 0 m

theorem expPathFrom_append (g : BGraph) (s : NodeRef) :
    ∀ (m j : Nat),
    expPathFrom g s j (m + 1) =
      expPathFrom g s j m ++
        [(stepRef g)^[j + m] s,
         partnerRef g ((stepRef g)^[j + m] s)] := by
  intro m
  induction m with
  | zero =>
    intro j
    simp [expPathFrom]
  | succ m ih =>
    intro j
    calc expPathFrom g s j (m + 2)
        = (stepRef g)^[j] s :: partnerRef g ((stepRef g)^[j] s) ::
            expPathFrom g s (j + 1) (m + 1) := rfl
      _ = (stepRef g)^[j] s :: partnerRef g ((stepRef g)^[j] s) ::
            (expPathFrom g s (j + 1) m ++
              [(stepRef g)^[j + 1 + m] s,
               partnerRef g ((stepRef g)^[j + 1 + m] s)]) := by
            rw [ih (j + 1)]
      _ = expPathFrom g s j (m + 1) ++
            [(stepRef g)^[j + (m + 1)] s,
             partnerRef g ((stepRef g)^[j + (m + 1)] s)] := by
            have he : j + 1 + m = j + (m + 1) := by omega
            rw [he]
            rfl

theorem expPath_succ (g : BGraph) (s : NodeRef) (m : Nat) :
    expPath g s (m + 1) =
      expPath g s m ++
        [(stepRef g)^[m] s, partnerRef g ((stepRef g)^[m] s)] := by
  unfold expPath
  rw [expPathFrom_append g s m 0]
  have h0 : 0 + m = m := by omega
  rw [h0]

theorem mem_expPathFrom (g : BGraph) (s : NodeRef) :
    ∀ (m j : Nat) (r : NodeRef),
    (r ∈ expPathFrom g s j m ↔
      ∃ i, i < m ∧ (r = (stepRef g)^[j + i] s ∨
        r = partnerRef g ((stepRef g)^[j + i] s))) := by
  intro m
  induction m with
  | zero =>
    intro j r
    simp [expPathFrom]
  | succ m ih =>
    intro j r
    constructor
    · intro h
      rcases h with _ | ⟨_, h2⟩
      · exact ⟨0, by omega, Or.inl (by rw [Nat.add_zero])⟩
      · rcases h2 with _ | ⟨_, h3⟩
        · exact ⟨0, by omega, Or.inr (by rw [Nat.add_zero])⟩
        · obtain ⟨i, hi, hcase⟩ := (ih (j + 1) r).mp h3
          refine ⟨i + 1, by omega, ?_⟩
          have he : j + (i + 1) = j + 1 + i := by omega
          rw [he]
          exact hcase
    · rintro ⟨i, hi, hcase⟩
      cases i with
      | zero =>
        rw [Nat.add_zero] at hcase
        rcases hcase with h1 | h1
        · rw [h1]; exact List.mem_cons_self _ _
        · rw [h1]
          exact List.mem_cons_of_mem _ (List.mem_cons_self _ _)
      | succ i2 =>
        apply List.mem_cons_of_mem
        apply List.mem_cons_of_mem
        apply (ih (j + 1) r).mpr
        refine ⟨i2, by omega, ?_⟩
        have he : j + 1 + i2 = j + (i2 + 1) := by omega
        rw [he]
        exact hcase

theorem mem_expPath (g : BGraph) (s : NodeRef) (m : Nat) (r : NodeRef) :
    (r ∈ expPath g s m ↔
      ∃ i, i < m ∧ (r = (stepRef g)^[i] s ∨
        r = partnerRef g ((stepRef g)^[i] s))) := by
  unfold expPath
  rw [mem_expPathFrom g s m 0 r]
  simp only [Nat.zero_add]

theorem expPath_valid (g : BGraph) (W : TravWF g) (s : NodeRef)
    (hval : RefValid g s) (m : Nat) :
    ∀ r ∈ expPath g s m, RefValid g r := by
  intro r hr
  obtain ⟨i, _, hcase⟩ := (mem_expPath g s m r).mp hr
  rcases hcase with h1 | h1
  · rw [h1]; exact stepRef_iterate_valid g W s hval i
  · rw [h1]
    exact partnerRef_valid g _ (stepRef_iterate_valid g W s hval i)

/-- On a well-formed graph one inner-walk iteration from an unvisited
node visits the node and its partner and jumps to the partner's cross
link, i.e. to `stepRef`. -/
theorem walk_unfold_wf (g : BGraph) (W : TravWF g) (fuel : Nat)
    (current : NodeRef) (vs : VState) (acc : List NodeRef)
    (hval : RefValid g current) (hv : vs.visited current = false) :
    walkLoop g (fuel + 1) current vs acc =
      walkLoop g fuel (stepRef g current)
        ((vs.visit current).visit (partnerRef g current))
        ((acc ++ [current]) ++ [partnerRef g current]) := by
  obtain ⟨hn, _, _⟩ := stepRef_spec g W current hval
  cases hst : g.status current with
  | None => exact absurd hst (W.status_ne current hval)
  | Enter =>
    have hp := partnerRef_enter g current hst
    have hnx := next_eq g current hval
    simp only [walkLoop, hv, Bool.false_eq_true, if_false, next_or_prev,
      hst, hnx]
    rw [← hp, hn]
  | Exit =>
    have hp := partnerRef_exit g current hst
    have hnx := prev_eq g current hval
    simp only [walkLoop, hv, Bool.false_eq_true, if_false, next_or_prev,
      hst, hnx]
    rw [← hp, hn]

/-- The inner walk from iterate `j` of a fresh start `s` visits exactly
the remaining currents and their partners, stopping when the orbit
closes at `s`. -/
theorem walk_inner (g : BGraph) (W : TravWF g) (s : NodeRef)
    (hs : RefValid g s) (vs0 : VState) (hlen0 : VLen g vs0)
    (hU : UClosed g vs0) (hsv : vs0.visited s = false) (N : Nat)
    (hN : 0 < N) (hret : (stepRef g)^[N] s = s)
    (hmin : ∀ m, 0 < m → m < N → (stepRef g)^[m] s ≠ s) :
    ∀ m j, j + m = N → ∀ fuel, m < fuel → ∀ acc,
    walkLoop g fuel ((stepRef g)^[j] s)
      (markList vs0 (expPath g s j)) acc =
      WalkOut.done (markList vs0 (expPath g s N))
        (acc ++ expPathFrom g s j m) := by
  intro m
  induction m with
  | zero =>
    intro j hj fuel hfuel acc
    obtain ⟨f, rfl⟩ : ∃ f, fuel = f + 1 := ⟨fuel - 1, by omega⟩
    have hjN : j = N := by omega
    subst hjN
    have hvis : (markList vs0 (expPath g s j)).visited
        ((stepRef g)^[j] s) = true := by
      rw [hret]
      apply (visited_markList g vs0 (expPath g s j)
        hlen0 (expPath_valid g W s hs j) s).mpr
      right
      apply (mem_expPath g s j s).mpr
      exact ⟨0, by omega, Or.inl (by simp)⟩
    rw [hret] at hvis ⊢
    simp only [walkLoop, hvis, if_true, expPathFrom, List.append_nil]
  | succ m ih =>
    intro j hj fuel hfuel acc
    obtain ⟨f, rfl⟩ : ∃ f, fuel = f + 1 := ⟨fuel - 1, by omega⟩
    have hjN : j < N := by omega
    have hcval : RefValid g ((stepRef g)^[j] s) :=
      stepRef_iterate_valid g W s hs j
    have hfresh : (markList vs0 (expPath g s j)).visited
        ((stepRef g)^[j] s) = false := by
      rw [Bool.eq_false_iff]
      intro hcontra
      rcases (visited_markList g vs0 (expPath g s j) hlen0
        (expPath_valid g W s hs j) _).mp hcontra with h1 | h1
      · rw [(unvisited_iterate g W s hs vs0 hU hsv j).1] at h1
        cases h1
      · obtain ⟨i, hi, hcase⟩ := (mem_expPath g s j _).mp h1
        rcases hcase with h2 | h2
        · exact iterate_distinct g W s hs N hmin i j hi hjN h2.symm
        · exact no_partner_hit g W s hs i j h2.symm
    rw [walk_unfold_wf g W f _ _ acc hcval hfresh]
    have hstep : stepRef g ((stepRef g)^[j] s) =
        (stepRef g)^[j + 1] s :=
      (Function.iterate_succ_apply' (stepRef g) j s).symm
    have hmark : ((markList vs0 (expPath g s j)).visit
          ((stepRef g)^[j] s)).visit
          (partnerRef g ((stepRef g)^[j] s)) =
        markList vs0 (expPath g s (j + 1)) := by
      rw [expPath_succ, markList_append]
      rfl
    rw [hstep, hmark]
    have hrec := ih (j + 1) (by omega) f (by omega)
      ((acc ++ [(stepRef g)^[j] s]) ++
        [partnerRef g ((stepRef g)^[j] s)])
    rw [hrec]
    congr 1
    show (acc ++ [(stepRef g)^[j] s]) ++
        [partnerRef g ((stepRef g)^[j] s)] ++
        expPathFrom g s (j + 1) m =
      acc ++ expPathFrom g s j (m + 1)
    rw [List.append_assoc, List.append_assoc]
    rfl

/-- The inner walk from a fresh start `s` on a well-formed graph: it
terminates normally, marking and pushing exactly the orbit of `s`
interleaved with its partners. -/
theorem walk_wf (g : BGraph) (W : TravWF g) (s : NodeRef)
    (hs : RefValid g s) (vs0 : VState) (hlen0 : VLen g vs0)
    (hU : UClosed g vs0) (hsv : vs0.visited s = false) (N : Nat)
    (hN : 0 < N) (hret : (stepRef g)^[N] s = s)
    (hmin : ∀ m, 0 < m → m < N → (stepRef g)^[m] s ≠ s)
    (fuel : Nat) (hfuel : N < fuel) (acc : List NodeRef) :
    walkLoop g fuel s vs0 acc =
      WalkOut.done (markList vs0 (expPath g s N))
        (acc ++ expPath g s N) := by
  have := walk_inner g W s hs vs0 hlen0 hU hsv N hN hret hmin N 0
    (by omega) fuel hfuel acc
  simpa [expPath] using this

theorem partnerRef_inj (g : BGraph) (W : TravWF g) (x y : NodeRef)
    (hx : RefValid g x) (hy : RefValid g y)
    (h : partnerRef g x = partnerRef g y) : x = y := by
  rw [← partnerRef_partnerRef g W x hx, h,
    partnerRef_partnerRef g W y hy]

theorem expPath_fresh (g : BGraph) (W : TravWF g) (s : NodeRef)
    (hs : RefValid g s) (vs : VState) (hU : UClosed g vs)
    (hsv : vs.visited s = false) (m : Nat) :
    ∀ r ∈ expPath g s m, vs.visited r = false := by
  intro r hr
  obtain ⟨i, _, hcase⟩ := (mem_expPath g s m r).mp hr
  rcases hcase with h1 | h1
  · rw [h1]
    exact (unvisited_iterate g W s hs vs hU hsv i).1
  · rw [h1]
    exact (unvisited_iterate g W s hs vs hU hsv i).2

theorem expPathFrom_nodup (g : BGraph) (W : TravWF g) (s : NodeRef)
    (hs : RefValid g s) (N : Nat)
    (hmin : ∀ m2, 0 < m2 → m2 < N → (stepRef g)^[m2] s ≠ s) :
    ∀ m j, j + m ≤ N → (expPathFrom g s j m).Nodup := by
  intro m
  induction m with
  | zero => intro j _; exact List.nodup_nil
  | succ m ih =>
    intro j hjm
    have hcval : ∀ i, RefValid g ((stepRef g)^[i] s) :=
      stepRef_iterate_valid g W s hs
    have hmemrest : ∀ r ∈ expPathFrom g s (j + 1) m,
        ∃ i, i < m ∧ (r = (stepRef g)^[j + 1 + i] s ∨
          r = partnerRef g ((stepRef g)^[j + 1 + i] s)) :=
      fun r hr => (mem_expPathFrom g s m (j + 1) r).mp hr
    have hc_notin : (stepRef g)^[j] s ∉ expPathFrom g s (j + 1) m := by
      intro hcontra
      obtain ⟨i, hi, hcase⟩ := hmemrest _ hcontra
      rcases hcase with h1 | h1
      · exact iterate_distinct g W s hs N hmin j (j + 1 + i)
          (by omega) (by omega) h1
      · exact no_partner_hit g W s hs (j + 1 + i) j h1.symm
    have hp_notin : partnerRef g ((stepRef g)^[j] s) ∉
        expPathFrom g s (j + 1) m := by
      intro hcontra
      obtain ⟨i, hi, hcase⟩ := hmemrest _ hcontra
      rcases hcase with h1 | h1
      · exact no_partner_hit g W s hs j (j + 1 + i) h1
      · have := partnerRef_inj g W _ _ (hcval j) (hcval (j + 1 + i)) h1
        exact iterate_distinct g W s hs N hmin j (j + 1 + i)
          (by omega) (by omega) this
    have hne : (stepRef g)^[j] s ≠
        partnerRef g ((stepRef g)^[j] s) :=
      fun hcontra => partnerRef_ne g W _ (hcval j) hcontra.symm
    refine List.nodup_cons.mpr ⟨?_, List.nodup_cons.mpr
      ⟨hp_notin, ih (j + 1) (by omega)⟩⟩
    intro hcontra
    rcases List.mem_cons.mp hcontra with h1 | h1
    · exact hne h1
    · exact hc_notin h1

theorem expPath_nodup (g : BGraph) (W : TravWF g) (s : NodeRef)
    (hs : RefValid g s) (N : Nat)
    (hmin : ∀ m2, 0 < m2 → m2 < N → (stepRef g)^[m2] s ≠ s) :
    (expPath g s N).Nodup :=
  expPathFrom_nodup g W s hs N hmin N 0 (by omega)

theorem step_c (g : BGraph) (s : NodeRef) (i : Nat) :
    stepRef g ((stepRef g)^[i] s) = (stepRef g)^[i + 1] s :=
  (Function.iterate_succ_apply' _ _ _).symm

theorem stepInv_c (g : BGraph) (W : TravWF g) (s : NodeRef)
    (hs : RefValid g s) (i : Nat) (hi : 0 < i) :
    stepInvRef g ((stepRef g)^[i] s) = (stepRef g)^[i - 1] s := by
  obtain ⟨i2, rfl⟩ : ∃ i2, i = i2 + 1 := ⟨i - 1, by omega⟩
  rw [Function.iterate_succ_apply',
    stepInvRef_stepRef g W _ (stepRef_iterate_valid g W s hs i2)]
  congr 1

theorem stepInv_pc (g : BGraph) (W : TravWF g) (s : NodeRef)
    (hs : RefValid g s) (i : Nat) :
    stepInvRef g (partnerRef g ((stepRef g)^[i] s)) =
      partnerRef g ((stepRef g)^[i + 1] s) := by
  rw [partner_iterate g W s hs i, partner_iterate g W s hs (i + 1)]
  exact (Function.iterate_succ_apply' _ _ _).symm

theorem step_pc (g : BGraph) (W : TravWF g) (s : NodeRef)
    (hs : RefValid g s) (i : Nat) (hi : 0 < i) :
    stepRef g (partnerRef g ((stepRef g)^[i] s)) =
      partnerRef g ((stepRef g)^[i - 1] s) := by
  obtain ⟨i2, rfl⟩ : ∃ i2, i = i2 + 1 := ⟨i - 1, by omega⟩
  have h1 := stepInv_pc g W s hs i2
  rw [← h1, stepRef_stepInvRef g W _
    (partnerRef_valid g _ (stepRef_iterate_valid g W s hs i2))]
  congr 2

theorem step_ps (g : BGraph) (W : TravWF g) (s : NodeRef)
    (hs : RefValid g s) (N : Nat) (hN : 0 < N)
    (hret : (stepRef g)^[N] s = s) :
    stepRef g (partnerRef g s) =
      partnerRef g ((stepRef g)^[N - 1] s) := by
  have h1 : partnerRef g s =
      stepInvRef g (partnerRef g ((stepRef g)^[N - 1] s)) := by
    rw [stepInv_pc g W s hs (N - 1)]
    have he : N - 1 + 1 = N := by omega
    rw [he, hret]
  rw [h1, stepRef_stepInvRef g W _
    (partnerRef_valid g _ (stepRef_iterate_valid g W s hs (N - 1)))]

theorem stepInv_s (g : BGraph) (W : TravWF g) (s : NodeRef)
    (hs : RefValid g s) (N : Nat) (hN : 0 < N)
    (hret : (stepRef g)^[N] s = s) :
    stepInvRef g s = (stepRef g)^[N - 1] s := by
  conv =>
    lhs
    rw [← hret]
  exact stepInv_c g W s hs N hN

/-- After a walk, the unvisited set is still closed under the partner,
step and inverse step moves: a walk consumes whole orbits. -/
theorem markExp_UClosed (g : BGraph) (W : TravWF g) (s : NodeRef)
    (hs : RefValid g s) (vs : VState) (hlen : VLen g vs)
    (hU : UClosed g vs) (N : Nat) (hN : 0 < N)
    (hret : (stepRef g)^[N] s = s) :
    UClosed g (markList vs (expPath g s N)) := by
  intro r hrval hrunv
  have hiff := fun q => visited_markList g vs (expPath g s N) hlen
    (expPath_valid g W s hs N) q
  have hsplit : vs.visited r = false ∧ r ∉ expPath g s N := by
    rw [Bool.eq_false_iff] at hrunv
    by_cases h1 : vs.visited r = true
    · exact absurd ((hiff r).mpr (Or.inl h1)) hrunv
    · by_cases h2 : r ∈ expPath g s N
      · exact absurd ((hiff r).mpr (Or.inr h2)) hrunv
      · exact ⟨by simpa using h1, h2⟩
  obtain ⟨hvs, hnm⟩ := hsplit
  have hclosed := hU r hrval hvs
  have hmk : ∀ q, RefValid g q → vs.visited q = false →
      q ∉ expPath g s N →
      (markList vs (expPath g s N)).visited q = false := by
    intro q hqval hq1 hq2
    rw [Bool.eq_false_iff]
    intro hcontra
    rcases (hiff q).mp hcontra with h1 | h1
    · rw [hq1] at h1; cases h1
    · exact hq2 h1
  have hmem : ∀ i, i < N →
      ((stepRef g)^[i] s ∈ expPath g s N ∧
       partnerRef g ((stepRef g)^[i] s) ∈ expPath g s N) := by
    intro i hi
    exact ⟨(mem_expPath g s N _).mpr ⟨i, hi, Or.inl rfl⟩,
      (mem_expPath g s N _).mpr ⟨i, hi, Or.inr rfl⟩⟩
  refine ⟨?_, ?_, ?_⟩
  · -- partner of r stays unvisited
    apply hmk _ (partnerRef_valid g r hrval) hclosed.1
    intro hcontra
    obtain ⟨i, hi, hcase⟩ := (mem_expPath g s N _).mp hcontra
    rcases hcase with h1 | h1
    · apply hnm
      have h2 : r = partnerRef g ((stepRef g)^[i] s) := by
        rw [← h1, partnerRef_partnerRef g W r hrval]
      rw [h2]
      exact (hmem i hi).2
    · apply hnm
      have h2 : r = (stepRef g)^[i] s :=
        partnerRef_inj g W _ _ hrval
          (stepRef_iterate_valid g W s hs i) h1
      rw [h2]
      exact (hmem i hi).1
  · -- step of r stays unvisited
    apply hmk _ (stepRef_valid g W r hrval) hclosed.2.1
    intro hcontra
    obtain ⟨i, hi, hcase⟩ := (mem_expPath g s N _).mp hcontra
    have hr2 : r = stepInvRef g (stepRef g r) :=
      (stepInvRef_stepRef g W r hrval).symm
    rcases hcase with h1 | h1
    · by_cases hi0 : 0 < i
      · apply hnm
        have h2 : r = (stepRef g)^[i - 1] s := by
          rw [hr2, h1, stepInv_c g W s hs i hi0]
        rw [h2]
        exact (hmem (i - 1) (by omega)).1
      · apply hnm
        have hieq : i = 0 := by omega
        have h2 : r = (stepRef g)^[N - 1] s := by
          rw [hr2, h1, hieq]
          exact stepInv_s g W s hs N hN hret
        rw [h2]
        exact (hmem (N - 1) (by omega)).1
    · apply hnm
      have h2 : r = partnerRef g ((stepRef g)^[i + 1] s) := by
        rw [hr2, h1, stepInv_pc g W s hs i]
      by_cases hiN : i + 1 < N
      · rw [h2]
        exact (hmem (i + 1) hiN).2
      · have hieq : i + 1 = N := by omega
        have h3 : r = partnerRef g ((stepRef g)^[0] s) := by
          rw [h2, hieq, hret]
          rfl
        rw [h3]
        exact (hmem 0 (by omega)).2
  · -- inverse step of r stays unvisited
    apply hmk _ (stepInvRef_valid g W r hrval) hclosed.2.2
    intro hcontra
    obtain ⟨i, hi, hcase⟩ := (mem_expPath g s N _).mp hcontra
    have hr2 : r = stepRef g (stepInvRef g r) :=
      (stepRef_stepInvRef g W r hrval).symm
    rcases hcase with h1 | h1
    · by_cases hiN : i + 1 < N
      · apply hnm
        have h2 : r = (stepRef g)^[i + 1] s := by
          rw [hr2, h1, step_c]
        rw [h2]
        exact (hmem (i + 1) hiN).1
      · apply hnm
        have hieq : i + 1 = N := by omega
        have h2 : r = (stepRef g)^[0] s := by
          rw [hr2, h1, step_c, hieq, hret]
          rfl
        rw [h2]
        exact (hmem 0 (by omega)).1
    · by_cases hi0 : 0 < i
      · apply hnm
        have h2 : r = partnerRef g ((stepRef g)^[i - 1] s) := by
          rw [hr2, h1, step_pc g W s hs i hi0]
        rw [h2]
        exact (hmem (i - 1) (by omega)).2
      · apply hnm
        have hieq : i = 0 := by omega
        have h2 : r = partnerRef g ((stepRef g)^[N - 1] s) := by
          rw [hr2, h1, hieq]
          exact step_ps g W s hs N hN hret
        rw [h2]
        exact (hmem (N - 1) (by omega)).2

/-- The outer traversal loop on a well-formed graph: unless a trim error
aborts the call, it returns Ok, and the concatenation of the walk paths
it accumulates lists every node that was unvisited at entry exactly
once. -/
theorem outer_wf (selfCurve otherCurve : NurbsCurve) (g : BGraph)
    (W : TravWF g) :
    ∀ (fuel : Nat) (vs : VState) (regions : List Region)
      (paths : List (List NodeRef)),
    VLen g vs → UClosed g vs → uc vs < fuel →
    (∃ e, outerLoop selfCurve otherCurve g fuel vs regions paths =
      BOut.error e) ∨
    (∃ regions1 paths1,
      outerLoop selfCurve otherCurve g fuel vs regions paths =
        BOut.ok regions1 g.a (paths ++ paths1) ∧
      (paths1.flatten).Nodup ∧
      (∀ r ∈ paths1.flatten, RefValid g r ∧ vs.visited r = false) ∧
      (∀ r, RefValid g r → vs.visited r = false → r ∈ paths1.flatten)) := by
  intro fuel
  induction fuel with
  | zero => intro vs regions paths _ _ hf; omega
  | succ f ih =>
    intro vs regions paths hlen hU hf
    have hk : 0 < g.a.length := by have := W.hk2a; omega
    cases hscn : nonVisited g vs (true, 0) (g.a.length + 1) with
    | none => exact absurd hscn (nonVisited_ne_none g vs hk)
    | some res =>
      cases res with
      | none =>
        right
        refine ⟨regions, [], ?_, List.nodup_nil, ?_, ?_⟩
        · simp only [outerLoop, hscn]
          rw [List.append_nil]
        · intro r hr; simp at hr
        · intro r hrval hrunv
          exfalso
          have hall := nonVisited_none_all g vs _ hscn
          rcases r with ⟨rb, ri⟩
          cases rb
          · have hstep_unv := (hU (false, ri) hrval hrunv).2.1
            have hstep_val := stepRef_valid g W (false, ri) hrval
            have hstep_side := stepRef_side g W (false, ri) hrval
            rcases hsr : stepRef g (false, ri) with ⟨sb2, j⟩
            rw [hsr] at hstep_side hstep_val hstep_unv
            have hsb2 : sb2 = true := by simpa using hstep_side
            subst hsb2
            have hjlt : j < g.a.length := by
              simpa [RefValid, BGraph.side] using hstep_val
            rw [hall j hjlt] at hstep_unv
            cases hstep_unv
          · have hrlt : ri < g.a.length := by
              simpa [RefValid, BGraph.side] using hrval
            rw [hall ri hrlt] at hrunv
            cases hrunv
      | some start =>
        obtain ⟨hsv, hside, hslt⟩ :=
          nonVisited_found g vs _ start hk hscn
        have hsval : RefValid g start := by
          rcases start with ⟨sb, si⟩
          cases sb
          · cases hside
          · simpa [RefValid, BGraph.side] using hslt
        obtain ⟨N0, hN0pos, hN0le, hN0ret⟩ :=
          exists_period g W start hsval
        have hPex : ∃ m, 0 < m ∧ (stepRef g)^[m] start = start :=
          ⟨N0, hN0pos, hN0ret⟩
        obtain ⟨hNpos, hNret⟩ := Nat.find_spec hPex
        have hNle : Nat.find hPex ≤ g.a.length + g.b.length :=
          le_trans (Nat.find_min' hPex ⟨hN0pos, hN0ret⟩) hN0le
        have hNmin : ∀ m, 0 < m → m < Nat.find hPex →
            (stepRef g)^[m] start ≠ start := by
          intro m hm hmN hcontra
          exact (Nat.find_min hPex hmN) ⟨hm, hcontra⟩
        have hwalk := walk_wf g W start hsval vs hlen hU hsv
          (Nat.find hPex) hNpos hNret hNmin
          (2 * (g.a.length + g.b.length) + 2) (by omega) []
        rw [List.nil_append] at hwalk
        cases hcc : consumeChunks selfCurve otherCurve g
            (expPath g start (Nat.find hPex)) with
        | error e =>
          left
          exact ⟨e, by simp only [outerLoop, hscn, hwalk, hcc]⟩
        | ok spans =>
          have hvs2len : VLen g
              (markList vs (expPath g start (Nat.find hPex))) :=
            vlen_markList g vs _ hlen
          have hvs2U : UClosed g
              (markList vs (expPath g start (Nat.find hPex))) :=
            markExp_UClosed g W start hsval vs hlen hU
              (Nat.find hPex) hNpos hNret
          have hsmem : start ∈ expPath g start (Nat.find hPex) :=
            (mem_expPath g start (Nat.find hPex) start).mpr
              ⟨0, hNpos, Or.inl (by simp)⟩
          have huc2 : uc (markList vs
              (expPath g start (Nat.find hPex))) < uc vs :=
            uc_markList_lt g vs _ start hlen hsmem hsval hsv
          rcases ih (markList vs (expPath g start (Nat.find hPex)))
            (regions ++ [⟨spans, []⟩])
            (paths ++ [expPath g start (Nat.find hPex)]) hvs2len hvs2U
            (by omega) with ⟨e, hr⟩ |
            ⟨regions1, paths1, hok, hnodup, hmemp, hcov⟩
          · left
            refine ⟨e, ?_⟩
            simp only [outerLoop, hscn, hwalk, hcc]
            exact hr
          · right
            refine ⟨regions1,
              expPath g start (Nat.find hPex) :: paths1, ?_, ?_, ?_, ?_⟩
            · simp only [outerLoop, hscn, hwalk, hcc]
              rw [hok, List.append_assoc]
              rfl
            · rw [List.flatten_cons]
              rw [List.nodup_append]
              refine ⟨expPath_nodup g W start hsval _ hNmin,
                hnodup, ?_⟩
              intro a ha1 ha2
              obtain ⟨_, hunv2⟩ := hmemp a ha2
              have hvt : (markList vs
                  (expPath g start (Nat.find hPex))).visited a =
                  true := by
                apply (visited_markList g vs _ hlen
                  (expPath_valid g W start hsval _) a).mpr
                exact Or.inr ha1
              rw [hvt] at hunv2
              cases hunv2
            · intro r hr
              rw [List.flatten_cons] at hr
              rcases List.mem_append.mp hr with h1 | h1
              · exact ⟨expPath_valid g W start hsval _ r h1,
                  expPath_fresh g W start hsval vs hU hsv _ r h1⟩
              · obtain ⟨hval1, hunv1⟩ := hmemp r h1
                refine ⟨hval1, ?_⟩
                rw [Bool.eq_false_iff]
                intro hcontra
                have hvt : (markList vs
                    (expPath g start (Nat.find hPex))).visited r =
                    true := by
                  apply (visited_markList g vs _ hlen
                    (expPath_valid g W start hsval _) r).mpr
                  exact Or.inl hcontra
                rw [hvt] at hunv1
                cases hunv1
            · intro r hrval hrunv
              rw [List.flatten_cons]
              apply List.mem_append.mpr
              by_cases hm : (markList vs
                  (expPath g start (Nat.find hPex))).visited r = true
              · rcases (visited_markList g vs _ hlen
                  (expPath_valid g W start hsval _) r).mp hm with
                  h1 | h1
                · rw [hrunv] at h1; cases h1
                · exact Or.inl h1
              · have hm2 : (markList vs
                    (expPath g start (Nat.find hPex))).visited r =
                    false := by simpa using hm
                exact Or.inr (hcov r hrval hm2)

theorem insertSorted_perm (le : α → α → Bool) (x : α) (l : List α) :
    List.Perm (insertSorted le x l) (x :: l) := by
  induction l with
  | nil => exact List.Perm.refl _
  | cons y ys ih =>
    by_cases h : le y x = true
    · simp only [insertSorted, h, if_true]
      exact List.Perm.trans (List.Perm.cons y ih)
        (List.Perm.swap x y ys)
    · simp only [insertSorted, h, if_false]
      exact List.Perm.refl _

theorem sortedBy_foldl_perm (le : α → α → Bool) (l : List α) :
    ∀ acc : List α,
    List.Perm (l.foldl (fun acc x => insertSorted le x acc) acc)
      (acc ++ l) := by
  induction l with
  | nil => intro acc; simp
  | cons x xs ih =>
    intro acc
    have h1 := ih (insertSorted le x acc)
    have h2 : List.Perm ((insertSorted le x acc) ++ xs)
        ((x :: acc) ++ xs) :=
      List.Perm.append_right xs (insertSorted_perm le x acc)
    have h3 : List.Perm ((x :: acc) ++ xs) (acc ++ x :: xs) :=
      List.perm_middle.symm
    exact h1.trans (h2.trans h3)

theorem sortedBy_perm (le : α → α → Bool) (l : List α) :
    List.Perm (sortedBy le l) l := by
  have h := sortedBy_foldl_perm le l []
  simpa [sortedBy] using h

/-- Closed form of the seeded status at position `i`. -/
def seedStatus (flag : Bool) (i : Nat) : Status :=
  if i % 2 = 0 ↔ flag = true then Status.Enter else Status.Exit

theorem invert_invert (s : Status) :
    Status.invert (Status.invert s) = s := by
  cases s <;> rfl

theorem seedStatus_succ (flag : Bool) (i : Nat) :
    seedStatus flag (i + 1) = Status.invert (seedStatus flag i) := by
  rcases Nat.even_or_odd i with he | ho
  · have h0 : i % 2 = 0 := Nat.even_iff.mp he
    have h1 : (i + 1) % 2 = 1 := by omega
    cases flag <;> simp [seedStatus, h0, h1, Status.invert]
  · have h0 : i % 2 = 1 := Nat.odd_iff.mp ho
    have h1 : (i + 1) % 2 = 0 := by omega
    cases flag <;> simp [seedStatus, h0, h1, Status.invert]

theorem seedStatus_wrap (flag : Bool) (k : Nat) (hk : 0 < k)
    (heven : k % 2 = 0) :
    seedStatus flag 0 = Status.invert (seedStatus flag (k - 1)) := by
  have h0 : (k - 1) % 2 = 1 := by omega
  cases flag <;> simp [seedStatus, h0, Status.invert]

theorem seedStatus_not (flag : Bool) (j : Nat) :
    seedStatus (!flag) j = seedStatus flag (j + 1) := by
  rw [seedStatus_succ flag j]
  rcases Nat.even_or_odd j with he | ho
  · have h0 : j % 2 = 0 := Nat.even_iff.mp he
    cases flag <;> simp [seedStatus, h0, Status.invert]
  · have h0 : j % 2 = 1 := Nat.odd_iff.mp ho
    cases flag <;> simp [seedStatus, h0, Status.invert]

theorem seedList_get (n : Nat) :
    ∀ (flag : Bool) (i : Nat) (h : i < (seedList flag n).length),
    (seedList flag n).get ⟨i, h⟩ = seedStatus flag i := by
  induction n with
  | zero =>
    intro flag i h
    simp [seedList] at h
  | succ m ih =>
    intro flag i h
    cases i with
    | zero =>
      cases flag <;> simp [seedList, seedStatus]
    | succ j =>
      have hj : j < (seedList (!flag) m).length := by
        simpa [seedList] using h
      have h1 : (seedList flag (m + 1)).get ⟨j + 1, h⟩ =
          (seedList (!flag) m).get ⟨j, hj⟩ := rfl
      rw [h1, ih (!flag) j hj, seedStatus_not]

/-- Whether the operation inverts the subject list statuses. -/
def opInvertsA : BooleanOperation → Bool
  | BooleanOperation.Union => true
  | BooleanOperation.Difference => true
  | BooleanOperation.Intersection => false

/-- Whether the operation inverts the clip list statuses. -/
def opInvertsB : BooleanOperation → Bool
  | BooleanOperation.Union => true
  | _ => false

theorem applyOpInversion_fst_eq (op : BooleanOperation)
    (a b : List Status) :
    (applyOpInversion op a b).1 =
      if opInvertsA op then a.map Status.invert else a := by
  cases op <;> rfl

theorem applyOpInversion_snd_eq (op : BooleanOperation)
    (a b : List Status) :
    (applyOpInversion op a b).2 =
      if opInvertsB op then b.map Status.invert else b := by
  cases op <;> rfl

/-- Conditional status inversion. -/
def condInvert (c : Bool) (s : Status) : Status :=
  if c then Status.invert s else s

theorem condInvert_invert (c : Bool) (s : Status) :
    condInvert c (Status.invert s) = Status.invert (condInvert c s) := by
  cases c <;> simp [condInvert]

theorem map_getD_status (l : List BNode) (i : Nat) (h : i < l.length) :
    (l.map BNode.status).getD i Status.None =
      (l.get ⟨i, h⟩).status := by
  induction l generalizing i with
  | nil => simp at h
  | cons x xs ih =>
    cases i with
    | zero => rfl
    | succ j => exact ih j (by simpa using h)

theorem getD_map_invert (l : List Status) (i : Nat) :
    (l.map Status.invert).getD i Status.None =
      Status.invert (l.getD i Status.None) := by
  induction l generalizing i with
  | nil => simp [Status.invert]
  | cons x xs ih =>
    cases i with
    | zero => rfl
    | succ j => exact ih j

theorem seedList_getD (n : Nat) (flag : Bool) (i : Nat) (h : i < n) :
    (seedList flag n).getD i Status.None = seedStatus flag i := by
  have hlen : i < (seedList flag n).length := by
    rw [seedList_length]; exact h
  rw [List.getD_eq_getElem _ _ hlen]
  have h2 := seedList_get n flag i hlen
  rw [List.get_eq_getElem] at h2
  exact h2

theorem status_getD (g : BGraph) (sb : Bool) (i : Nat)
    (h : i < (g.side sb).length) :
    g.status (sb, i) =
      ((g.side sb).map BNode.status).getD i Status.None := by
  have h1 : g.status (sb, i) = ((g.side sb).get ⟨i, h⟩).status := by
    unfold BGraph.status BGraph.node?
    rw [List.get?_eq_get h]
    rfl
  rw [h1, map_getD_status _ i h]

/-- Closed form of the status stored at every node of a built graph. -/
theorem buildGraph_status_formula (records : List IntersectionRecord)
    (aFlag bFlag : Bool) (op : BooleanOperation) (sb : Bool) (i : Nat)
    (hi : i < records.length) :
    (buildGraph records aFlag bFlag op).status (sb, i) =
      condInvert (if sb then opInvertsA op else opInvertsB op)
        (seedStatus (if sb then aFlag else bFlag) i) := by
  have hside : ((buildGraph records aFlag bFlag op).side sb).length =
      records.length := by
    cases sb
    · simpa [BGraph.side] using
        buildGraph_b_length records aFlag bFlag op
    · simpa [BGraph.side] using
        buildGraph_a_length records aFlag bFlag op
  have hval : i < ((buildGraph records aFlag bFlag op).side sb).length :=
    by omega
  rw [status_getD _ sb i hval]
  cases sb
  · have hmap : ((buildGraph records aFlag bFlag op).side false).map
        BNode.status =
        (applyOpInversion op (seedList aFlag records.length)
          (seedList bFlag records.length)).2 := by
      simpa [BGraph.side] using
        buildGraph_b_statuses records aFlag bFlag op
    rw [hmap, applyOpInversion_snd_eq]
    by_cases hop : opInvertsB op = true
    · rw [if_pos hop]
      simp only [if_true, hop]
      rw [getD_map_invert, seedList_getD records.length bFlag i hi]
      simp [condInvert, hop]
    · have hop2 : opInvertsB op = false := by simpa using hop
      rw [hop2]
      simp only [if_false, Bool.false_eq_true]
      rw [seedList_getD records.length bFlag i hi]
      simp [condInvert, hop2]
  · have hmap : ((buildGraph records aFlag bFlag op).side true).map
        BNode.status =
        (applyOpInversion op (seedList aFlag records.length)
          (seedList bFlag records.length)).1 := by
      simpa [BGraph.side] using
        buildGraph_a_statuses records aFlag bFlag op
    rw [hmap, applyOpInversion_fst_eq]
    by_cases hop : opInvertsA op = true
    · rw [if_pos hop]
      simp only [if_true, hop]
      rw [getD_map_invert, seedList_getD records.length aFlag i hi]
      simp [condInvert, hop]
    · have hop2 : opInvertsA op = false := by simpa using hop
      rw [hop2]
      simp only [if_false, Bool.false_eq_true]
      rw [seedList_getD records.length aFlag i hi]
      simp [condInvert, hop2]

theorem seedStatus_mod_succ (flag : Bool) (k i : Nat) (hi : i < k)
    (heven : k % 2 = 0) :
    seedStatus flag ((i + 1) % k) = Status.invert (seedStatus flag i) := by
  by_cases he : i + 1 = k
  · rw [he, Nat.mod_self]
    have h2 : i = k - 1 := by omega
    rw [h2]
    exact seedStatus_wrap flag k (by omega) heven
  · rw [Nat.mod_eq_of_lt (by omega), seedStatus_succ]

/-- On an even-sized built graph the statuses alternate cyclically. -/
theorem buildGraph_status_flip (records : List IntersectionRecord)
    (aFlag bFlag : Bool) (op : BooleanOperation)
    (heven : records.length % 2 = 0) (r : NodeRef)
    (hval : RefValid (buildGraph records aFlag bFlag op) r) :
    (buildGraph records aFlag bFlag op).status
      (r.1, (r.2 + 1) %
        ((buildGraph records aFlag bFlag op).side r.1).length) =
      Status.invert
        ((buildGraph records aFlag bFlag op).status r) := by
  have hside : ((buildGraph records aFlag bFlag op).side r.1).length =
      records.length := by
    cases hb : r.1
    · simpa [BGraph.side] using
        buildGraph_b_length records aFlag bFlag op
    · simpa [BGraph.side] using
        buildGraph_a_length records aFlag bFlag op
  have hi : r.2 < records.length := by
    have := hval
    unfold RefValid at this
    omega
  have hmod : (r.2 + 1) % records.length < records.length :=
    Nat.mod_lt _ (by omega)
  rcases r with ⟨rb, ri⟩
  simp only at hside hi ⊢
  rw [hside]
  rw [buildGraph_status_formula records aFlag bFlag op rb
    ((ri + 1) % records.length) hmod]
  rw [buildGraph_status_formula records aFlag bFlag op rb ri hi]
  rw [seedStatus_mod_succ _ records.length ri hi heven]
  exact condInvert_invert _ _

/-- List `a` source order: the enumerated records sorted by the
parameter on curve A. -/
def sortedA (records : List IntersectionRecord) :
    List (Nat × IntersectionRecord) :=
  sortedBy (fun x y => decide (x.2.a ≤ y.2.a))
    ((List.range records.length).zip records)

/-- List `b` source order: the enumerated records sorted by the
parameter on curve B. -/
def sortedB (records : List IntersectionRecord) :
    List (Nat × IntersectionRecord) :=
  sortedBy (fun x y => decide (x.2.b ≤ y.2.b))
    ((List.range records.length).zip records)

theorem sortedA_length (records : List IntersectionRecord) :
    (sortedA records).length = records.length := by
  simp [sortedA, sortedBy_length, List.length_zip]

theorem sortedB_length (records : List IntersectionRecord) :
    (sortedB records).length = records.length := by
  simp [sortedB, sortedBy_length, List.length_zip]

theorem indexed_map_fst (records : List IntersectionRecord) :
    ((List.range records.length).zip records).map Prod.fst =
      List.range records.length :=
  List.map_fst_zip _ _ (by simp)

theorem sortedA_fst_nodup (records : List IntersectionRecord) :
    ((sortedA records).map Prod.fst).Nodup := by
  have h1 := (sortedBy_perm (fun x y => decide (x.2.a ≤ y.2.a))
    ((List.range records.length).zip records)).map Prod.fst
  rw [indexed_map_fst records] at h1
  exact h1.nodup_iff.mpr (List.nodup_range _)

theorem sortedB_fst_nodup (records : List IntersectionRecord) :
    ((sortedB records).map Prod.fst).Nodup := by
  have h1 := (sortedBy_perm (fun x y => decide (x.2.b ≤ y.2.b))
    ((List.range records.length).zip records)).map Prod.fst
  rw [indexed_map_fst records] at h1
  exact h1.nodup_iff.mpr (List.nodup_range _)

theorem mem_sortedA_mem_sortedB (records : List IntersectionRecord)
    (p : Nat × IntersectionRecord) (h : p ∈ sortedA records) :
    p ∈ sortedB records := by
  have h1 := (sortedBy_perm (fun x y => decide (x.2.a ≤ y.2.a))
    ((List.range records.length).zip records)).mem_iff.mp h
  exact (sortedBy_perm (fun x y => decide (x.2.b ≤ y.2.b))
    ((List.range records.length).zip records)).mem_iff.mpr h1

theorem mem_sortedB_mem_sortedA (records : List IntersectionRecord)
    (p : Nat × IntersectionRecord) (h : p ∈ sortedB records) :
    p ∈ sortedA records := by
  have h1 := (sortedBy_perm (fun x y => decide (x.2.b ≤ y.2.b))
    ((List.range records.length).zip records)).mem_iff.mp h
  exact (sortedBy_perm (fun x y => decide (x.2.a ≤ y.2.a))
    ((List.range records.length).zip records)).mem_iff.mpr h1

/-- The node stored at position `i` of list `a`: its cross link is the
position in the sorted-by-B order of the element with the same original
record index. -/
theorem buildGraph_a_node (records : List IntersectionRecord)
    (aFlag bFlag : Bool) (op : BooleanOperation) (i : Nat)
    (hi : i < records.length) (hsa : i < (sortedA records).length) :
    ∃ n, (buildGraph records aFlag bFlag op).node? (true, i) = some n ∧
      n.neighbor = (sortedB records).findIdx?
        (fun q => q.1 == ((sortedA records).get ⟨i, hsa⟩).1) := by
  have hlen2 : i < (buildGraph records aFlag bFlag op).a.length := by
    rw [buildGraph_a_length]; exact hi
  have hget := List.get?_eq_get
    (l := (buildGraph records aFlag bFlag op).a) (n := i) hlen2
  refine ⟨(buildGraph records aFlag bFlag op).a.get ⟨i, hlen2⟩, ?_, ?_⟩
  · show ((buildGraph records aFlag bFlag op).side true).get? i = _
    exact hget
  · have hga : (buildGraph records aFlag bFlag op).a =
        ((sortedA records).zip
          (applyOpInversion op (seedList aFlag (sortedA records).length)
            (seedList bFlag (sortedB records).length)).1).map
          (fun p =>
            { parameter := p.1.2.a, status := p.2,
              neighbor := (sortedB records).findIdx?
                (fun q => q.1 == p.1.1) : BNode}) := rfl
    have hst : i < (applyOpInversion op
        (seedList aFlag (sortedA records).length)
        (seedList bFlag (sortedB records).length)).1.length := by
      rw [applyOpInversion_fst_length, seedList_length, sortedA_length]
      exact hi
    have hzip : i < ((sortedA records).zip
        (applyOpInversion op (seedList aFlag (sortedA records).length)
          (seedList bFlag (sortedB records).length)).1).length := by
      rw [List.length_zip]
      omega
    have hgeq : (buildGraph records aFlag bFlag op).a.get ⟨i, hlen2⟩ =
        { parameter := ((sortedA records).get ⟨i, hsa⟩).2.a,
          status := ((applyOpInversion op
            (seedList aFlag (sortedA records).length)
            (seedList bFlag (sortedB records).length)).1.get ⟨i, hst⟩),
          neighbor := (sortedB records).findIdx?
            (fun q => q.1 == ((sortedA records).get ⟨i, hsa⟩).1) } := by
      rw [List.get_eq_getElem]
      have hx : (buildGraph records aFlag bFlag op).a[i] =
          (((sortedA records).zip
            (applyOpInversion op
              (seedList aFlag (sortedA records).length)
              (seedList bFlag (sortedB records).length)).1).map
            (fun p =>
              { parameter := p.1.2.a, status := p.2,
                neighbor := (sortedB records).findIdx?
                  (fun q => q.1 == p.1.1) : BNode}))[i] := by
        congr 1
      rw [hx, List.getElem_map, List.getElem_zip]
      simp [List.get_eq_getElem]
    rw [hgeq]

/-- The node stored at position `j` of list `b`. -/
theorem buildGraph_b_node (records : List IntersectionRecord)
    (aFlag bFlag : Bool) (op : BooleanOperation) (j : Nat)
    (hj : j < records.length) (hsb : j < (sortedB records).length) :
    ∃ n, (buildGraph records aFlag bFlag op).node? (false, j) = some n ∧
      n.neighbor = (sortedA records).findIdx?
        (fun q => q.1 == ((sortedB records).get ⟨j, hsb⟩).1) := by
  have hlen2 : j < (buildGraph records aFlag bFlag op).b.length := by
    rw [buildGraph_b_length]; exact hj
  have hget := List.get?_eq_get
    (l := (buildGraph records aFlag bFlag op).b) (n := j) hlen2
  refine ⟨(buildGraph records aFlag bFlag op).b.get ⟨j, hlen2⟩, ?_, ?_⟩
  · show ((buildGraph records aFlag bFlag op).side false).get? j = _
    exact hget
  · have hst : j < (applyOpInversion op
        (seedList aFlag (sortedA records).length)
        (seedList bFlag (sortedB records).length)).2.length := by
      rw [applyOpInversion_snd_length, seedList_length, sortedB_length]
      exact hj
    have hgeq : (buildGraph records aFlag bFlag op).b.get ⟨j, hlen2⟩ =
        { parameter := ((sortedB records).get ⟨j, hsb⟩).2.b,
          status := ((applyOpInversion op
            (seedList aFlag (sortedA records).length)
            (seedList bFlag (sortedB records).length)).2.get ⟨j, hst⟩),
          neighbor := (sortedA records).findIdx?
            (fun q => q.1 == ((sortedB records).get ⟨j, hsb⟩).1) } := by
      rw [List.get_eq_getElem]
      have hx : (buildGraph records aFlag bFlag op).b[j] =
          (((sortedB records).zip
            (applyOpInversion op
              (seedList aFlag (sortedA records).length)
              (seedList bFlag (sortedB records).length)).2).map
            (fun p =>
              { parameter := p.1.2.b, status := p.2,
                neighbor := (sortedA records).findIdx?
                  (fun q => q.1 == p.1.1) : BNode}))[j] := by
        congr 1
      rw [hx, List.getElem_map, List.getElem_zip]
      simp [List.get_eq_getElem]
    rw [hgeq]

theorem findIdx_fst_self (l : List (Nat × IntersectionRecord))
    (hnodup : (l.map Prod.fst).Nodup) (i : Nat) (hi : i < l.length) :
    l.findIdx? (fun q => q.1 == (l.get ⟨i, hi⟩).1) = some i := by
  apply List.findIdx?_eq_some_iff_getElem.mpr
  refine ⟨hi, ?_, ?_⟩
  · simp [List.get_eq_getElem]
  · intro j hj
    simp only [List.get_eq_getElem, Bool.not_eq_true, beq_eq_false_iff_ne,
      ne_eq]
    intro hcontra
    have hjl : j < (l.map Prod.fst).length := by
      rw [List.length_map]; omega
    have hil : i < (l.map Prod.fst).length := by
      rw [List.length_map]; omega
    have h1 : (l.map Prod.fst)[j] = (l.map Prod.fst)[i] := by
      rw [List.getElem_map, List.getElem_map]
      exact hcontra
    have h2 := (List.Nodup.getElem_inj_iff hnodup).mp h1
    omega

theorem buildGraph_cross_some (records : List IntersectionRecord)
    (aFlag bFlag : Bool) (op : BooleanOperation) (r : NodeRef)
    (hval : RefValid (buildGraph records aFlag bFlag op) r) :
    ∃ r2, (buildGraph records aFlag bFlag op).neighbor r = some r2 ∧
      RefValid (buildGraph records aFlag bFlag op) r2 := by
  rcases r with ⟨rb, ri⟩
  cases rb
  · have hj : ri < records.length := by
      have hl := buildGraph_b_length records aFlag bFlag op
      unfold RefValid at hval
      simp only [BGraph.side] at hval
      simp at hval
      omega
    have hsb : ri < (sortedB records).length := by
      rw [sortedB_length]; exact hj
    obtain ⟨n, hn, hnb⟩ := buildGraph_b_node records aFlag bFlag op ri
      hj hsb
    have hmem : (sortedB records).get ⟨ri, hsb⟩ ∈ sortedA records :=
      mem_sortedB_mem_sortedA records _ (List.get_mem _ _ _)
    have hsome : ((sortedA records).findIdx?
        (fun q => q.1 == ((sortedB records).get ⟨ri, hsb⟩).1)).isSome :=
      by
      rw [List.findIdx?_isSome]
      apply List.any_eq_true.mpr
      exact ⟨_, hmem, by simp⟩
    obtain ⟨j, hjeq⟩ := Option.isSome_iff_exists.mp hsome
    have hjlt : j < (sortedA records).length :=
      (List.findIdx?_eq_some_iff_getElem.mp hjeq).1
    refine ⟨(true, j), ?_, ?_⟩
    · unfold BGraph.neighbor
      rw [show (buildGraph records aFlag bFlag op).node? (false, ri) =
        some n from hn, Option.some_bind]
      rw [show n.neighbor = some j from by rw [hnb]; exact hjeq]
      rfl
    · unfold RefValid
      have hal := buildGraph_a_length records aFlag bFlag op
      rw [sortedA_length] at hjlt
      simp only [BGraph.side]
      simp
      omega
  · have hi : ri < records.length := by
      have hl := buildGraph_a_length records aFlag bFlag op
      unfold RefValid at hval
      simp only [BGraph.side] at hval
      simp at hval
      omega
    have hsa : ri < (sortedA records).length := by
      rw [sortedA_length]; exact hi
    obtain ⟨n, hn, hnb⟩ := buildGraph_a_node records aFlag bFlag op ri
      hi hsa
    have hmem : (sortedA records).get ⟨ri, hsa⟩ ∈ sortedB records :=
      mem_sortedA_mem_sortedB records _ (List.get_mem _ _ _)
    have hsome : ((sortedB records).findIdx?
        (fun q => q.1 == ((sortedA records).get ⟨ri, hsa⟩).1)).isSome :=
      by
      rw [List.findIdx?_isSome]
      apply List.any_eq_true.mpr
      exact ⟨_, hmem, by simp⟩
    obtain ⟨j, hjeq⟩ := Option.isSome_iff_exists.mp hsome
    have hjlt : j < (sortedB records).length :=
      (List.findIdx?_eq_some_iff_getElem.mp hjeq).1
    refine ⟨(false, j), ?_, ?_⟩
    · unfold BGraph.neighbor
      rw [show (buildGraph records aFlag bFlag op).node? (true, ri) =
        some n from hn, Option.some_bind]
      rw [show n.neighbor = some j from by rw [hnb]; exact hjeq]
      rfl
    · unfold RefValid
      have hbl := buildGraph_b_length records aFlag bFlag op
      rw [sortedB_length] at hjlt
      simp only [BGraph.side]
      simp
      omega

theorem buildGraph_cross_inv (records : List IntersectionRecord)
    (aFlag bFlag : Bool) (op : BooleanOperation) :
    ∀ r r2, (buildGraph records aFlag bFlag op).neighbor r = some r2 →
      (buildGraph records aFlag bFlag op).neighbor r2 = some r := by
  intro r r2 h
  rcases r with ⟨rb, ri⟩
  cases rb
  · cases hn : (buildGraph records aFlag bFlag op).node? (false, ri) with
    | none => simp [BGraph.neighbor, hn] at h
    | some n =>
      have hlt : ri <
          ((buildGraph records aFlag bFlag op).side false).length := by
        by_contra h2
        have hnone : ((buildGraph records aFlag bFlag op).side
            false).get? ri = Option.none :=
          List.get?_eq_none.mpr (by omega)
        have hnone2 : (buildGraph records aFlag bFlag op).node?
            (false, ri) = Option.none := hnone
        rw [hnone2] at hn
        cases hn
      have hj0 : ri < records.length := by
        have hbl := buildGraph_b_length records aFlag bFlag op
        simp only [BGraph.side] at hlt
        simp at hlt
        omega
      have hsb : ri < (sortedB records).length := by
        rw [sortedB_length]; exact hj0
      obtain ⟨n0, hn0, hnb0⟩ := buildGraph_b_node records aFlag bFlag op
        ri hj0 hsb
      have hne : n = n0 := by
        rw [hn] at hn0
        exact (Option.some.injEq _ _).mp hn0
      cases hnb : n.neighbor with
      | none => simp [BGraph.neighbor, hn, hnb] at h
      | some j =>
        have hr2 : r2 = (true, j) := by
          simp [BGraph.neighbor, hn, hnb] at h
          exact h.symm
        subst hr2
        have hfi : (sortedA records).findIdx?
            (fun q => q.1 == ((sortedB records).get ⟨ri, hsb⟩).1) =
            some j := by
          rw [hne] at hnb
          rw [hnb0] at hnb
          exact hnb
        obtain ⟨hjlt, hpred, _⟩ :=
          List.findIdx?_eq_some_iff_getElem.mp hfi
        have hkey : ((sortedA records).get ⟨j, hjlt⟩).1 =
            ((sortedB records).get ⟨ri, hsb⟩).1 := by
          rw [List.get_eq_getElem]
          exact eq_of_beq hpred
        have hjrec : j < records.length := by
          rw [sortedA_length] at hjlt; exact hjlt
        obtain ⟨n2, hn2, hnb2⟩ := buildGraph_a_node records aFlag bFlag
          op j hjrec hjlt
        have hfi2 : (sortedB records).findIdx?
            (fun q => q.1 == ((sortedA records).get ⟨j, hjlt⟩).1) =
            some ri := by
          simp only [hkey]
          exact findIdx_fst_self (sortedB records)
            (sortedB_fst_nodup records) ri hsb
        unfold BGraph.neighbor
        rw [show (buildGraph records aFlag bFlag op).node? (true, j) =
          some n2 from hn2, Option.some_bind]
        rw [show n2.neighbor = some ri from by rw [hnb2]; exact hfi2]
        rfl
  · cases hn : (buildGraph records aFlag bFlag op).node? (true, ri) with
    | none => simp [BGraph.neighbor, hn] at h
    | some n =>
      have hlt : ri <
          ((buildGraph records aFlag bFlag op).side true).length := by
        by_contra h2
        have hnone : ((buildGraph records aFlag bFlag op).side
            true).get? ri = Option.none :=
          List.get?_eq_none.mpr (by omega)
        have hnone2 : (buildGraph records aFlag bFlag op).node?
            (true, ri) = Option.none := hnone
        rw [hnone2] at hn
        cases hn
      have hj0 : ri < records.length := by
        have hal := buildGraph_a_length records aFlag bFlag op
        simp only [BGraph.side] at hlt
        simp at hlt
        omega
      have hsa : ri < (sortedA records).length := by
        rw [sortedA_length]; exact hj0
      obtain ⟨n0, hn0, hnb0⟩ := buildGraph_a_node records aFlag bFlag op
        ri hj0 hsa
      have hne : n = n0 := by
        rw [hn] at hn0
        exact (Option.some.injEq _ _).mp hn0
      cases hnb : n.neighbor with
      | none => simp [BGraph.neighbor, hn, hnb] at h
      | some j =>
        have hr2 : r2 = (false, j) := by
          simp [BGraph.neighbor, hn, hnb] at h
          exact h.symm
        subst hr2
        have hfi : (sortedB records).findIdx?
            (fun q => q.1 == ((sortedA records).get ⟨ri, hsa⟩).1) =
            some j := by
          rw [hne] at hnb
          rw [hnb0] at hnb
          exact hnb
        obtain ⟨hjlt, hpred, _⟩ :=
          List.findIdx?_eq_some_iff_getElem.mp hfi
        have hkey : ((sortedB records).get ⟨j, hjlt⟩).1 =
            ((sortedA records).get ⟨ri, hsa⟩).1 := by
          rw [List.get_eq_getElem]
          exact eq_of_beq hpred
        have hjrec : j < records.length := by
          rw [sortedB_length] at hjlt; exact hjlt
        obtain ⟨n2, hn2, hnb2⟩ := buildGraph_b_node records aFlag bFlag
          op j hjrec hjlt
        have hfi2 : (sortedA records).findIdx?
            (fun q => q.1 == ((sortedB records).get ⟨j, hjlt⟩).1) =
            some ri := by
          simp only [hkey]
          exact findIdx_fst_self (sortedA records)
            (sortedA_fst_nodup records) ri hsa
        unfold BGraph.neighbor
        rw [show (buildGraph records aFlag bFlag op).node? (false, j) =
          some n2 from hn2, Option.some_bind]
        rw [show n2.neighbor = some ri from by rw [hnb2]; exact hfi2]
        rfl

/-- A graph built from an even, at-least-two-element oracle output is
well-formed for the traversal analysis. -/
theorem buildGraph_travWF (records : List IntersectionRecord)
    (aFlag bFlag : Bool) (op : BooleanOperation)
    (heven : records.length % 2 = 0) (hk2 : 2 ≤ records.length) :
    TravWF (buildGraph records aFlag bFlag op) where
  hk2a := by rw [buildGraph_a_length]; exact hk2
  hk2b := by rw [buildGraph_b_length]; exact hk2
  cross_some := buildGraph_cross_some records aFlag bFlag op
  cross_inv := buildGraph_cross_inv records aFlag bFlag op
  status_ne := buildGraph_statusSet records aFlag bFlag op
  status_flip := buildGraph_status_flip records aFlag bFlag op heven

theorem count_eq_one_of_nodup_mem [BEq α] [LawfulBEq α] (l : List α)
    (a : α) (h1 : l.Nodup) (h2 : a ∈ l) : l.count a = 1 := by
  induction l with
  | nil => cases h2
  | cons x xs ih =>
    rw [List.count_cons]
    rcases List.mem_cons.mp h2 with h3 | h3
    · subst h3
      have hnotin : a ∉ xs := (List.nodup_cons.mp h1).1
      rw [List.count_eq_zero.mpr hnotin]
      simp
    · have hc := ih (List.nodup_cons.mp h1).2 h3
      rw [hc]
      have hne : x ≠ a := by
        intro hcontra
        subst hcontra
        exact (List.nodup_cons.mp h1).1 h3
      simp [hne]

theorem getD_replicate_false (n i : Nat) :
    (List.replicate n false).getD i false = false := by
  induction n generalizing i with
  | zero => rfl
  | succ m ih =>
    cases i with
    | zero => rfl
    | succ j => exact ih j

/-- Claim C8 fails on the code as stated: with an odd crossing count
(possible, since no parity check exists) the walk below pushes node
`(true, 2)` twice and never reaches node `(false, 0)` — the scan for
unvisited nodes only covers list `a`. -/
theorem C8_counterexample :
    boolean ⟨0, 10⟩ ⟨0, 10⟩ BooleanOperation.Intersection
        [⟨1, 1⟩, ⟨4, 4⟩, ⟨7, 7⟩] true true =
      BOut.ok [⟨[], []⟩]
        [⟨1, Status.Exit, some 0⟩, ⟨4, Status.Enter, some 1⟩,
         ⟨7, Status.Exit, some 2⟩]
        [[(true, 0), (true, 2), (false, 2), (false, 1), (true, 1),
          (true, 2)]] ∧
    (List.flatten [[((true, 0) : NodeRef), (true, 2), (false, 2),
      (false, 1), (true, 1), (true, 2)]]).count ((true, 2) : NodeRef) =
      2 ∧
    ((false, 0) : NodeRef) ∉
      List.flatten [[((true, 0) : NodeRef), (true, 2), (false, 2),
        (false, 1), (true, 1), (true, 2)]] ∧
    RefValid (buildGraph [⟨1, 1⟩, ⟨4, 4⟩, ⟨7, 7⟩] (!true) (!true)
      BooleanOperation.Intersection) ((false, 0) : NodeRef) := by
  refine ⟨by rfl, by rfl, by decide, ?_⟩
  unfold RefValid
  decide

/-- Claim C8 amended: provided the crossing count is even (the parity
the spec's invariant requires), after the outer traversal loop completes
every node of listA and listB is visited exactly once — each node
reference appears exactly once in the concatenation of the visit paths
the traversal accumulated. -/
theorem C8_full_coverage (selfCurve otherCurve : NurbsCurve)
    (op : BooleanOperation) (records : List IntersectionRecord)
    (aContains bContains : Bool) (heven : records.length % 2 = 0)
    (hne : records ≠ []) (regions : List Region) (nodes : List BNode)
    (paths : List (List NodeRef))
    (hok : boolean selfCurve otherCurve op records aContains bContains =
      BOut.ok regions nodes paths) :
    ∀ r : NodeRef,
    RefValid (buildGraph records (!aContains) (!bContains) op) r →
    (List.flatten paths).count r = 1 := by
  intro r hval
  have hk2 : 2 ≤ records.length := by
    cases records with
    | nil => exact absurd rfl hne
    | cons x xs =>
      have : 0 < (x :: xs).length := by simp
      omega
  have W := buildGraph_travWF records (!aContains) (!bContains) op
    heven hk2
  have hemp : records.isEmpty = false := by
    cases records with
    | nil => exact absurd rfl hne
    | cons x xs => rfl
  unfold boolean at hok
  rw [hemp] at hok
  simp only [Bool.false_eq_true, if_false] at hok
  have hrep : ∀ q : NodeRef,
      (⟨List.replicate (buildGraph records (!aContains) (!bContains)
          op).a.length false,
        List.replicate (buildGraph records (!aContains) (!bContains)
          op).b.length false⟩ : VState).visited q = false := by
    intro q
    unfold VState.visited
    cases hq : q.1 <;> simp only [if_true, if_false] <;>
      exact getD_replicate_false _ _
  have hlen : VLen (buildGraph records (!aContains) (!bContains) op)
      ⟨List.replicate (buildGraph records (!aContains) (!bContains)
          op).a.length false,
        List.replicate (buildGraph records (!aContains) (!bContains)
          op).b.length false⟩ := ⟨by simp, by simp⟩
  have hU : UClosed (buildGraph records (!aContains) (!bContains) op)
      ⟨List.replicate (buildGraph records (!aContains) (!bContains)
          op).a.length false,
        List.replicate (buildGraph records (!aContains) (!bContains)
          op).b.length false⟩ := by
    intro q _ _
    exact ⟨hrep _, hrep _, hrep _⟩
  have huc : uc (⟨List.replicate (buildGraph records (!aContains)
        (!bContains) op).a.length false,
      List.replicate (buildGraph records (!aContains) (!bContains)
        op).b.length false⟩ : VState) < 2 * records.length + 2 := by
    have ha := buildGraph_a_length records (!aContains) (!bContains) op
    have hb := buildGraph_b_length records (!aContains) (!bContains) op
    simp only [uc, List.count_replicate_self]
    omega
  rcases outer_wf selfCurve otherCurve
    (buildGraph records (!aContains) (!bContains) op) W
    (2 * records.length + 2)
    ⟨List.replicate (buildGraph records (!aContains) (!bContains)
        op).a.length false,
      List.replicate (buildGraph records (!aContains) (!bContains)
        op).b.length false⟩ [] [] hlen hU huc with
    ⟨e, he⟩ | ⟨regions1, paths1, hokk, hnodup, hmemp, hcov⟩
  · rw [he] at hok
    cases hok
  · rw [hokk, List.nil_append] at hok
    have hpaths : paths1 = paths := by
      cases hok
      rfl
    rw [← hpaths]
    exact count_eq_one_of_nodup_mem _ r hnodup (hcov r hval (hrep r))

/-- Witness for C8 at a concrete even-count run. -/
theorem C8_full_coverage_witness :
    (([⟨2, 2⟩, ⟨7, 7⟩] : List IntersectionRecord).length % 2 = 0) ∧
    (([⟨2, 2⟩, ⟨7, 7⟩] : List IntersectionRecord) ≠ []) ∧
    (List.flatten [[((true, 0) : NodeRef), (true, 1), (false, 1),
      (false, 0)]]).count ((true, 0) : NodeRef) = 1 := by
  refine ⟨by decide, by decide, ?_⟩
  exact C8_full_coverage ⟨0, 10⟩ ⟨0, 10⟩ BooleanOperation.Intersection
    [⟨2, 2⟩, ⟨7, 7⟩] true true (by decide) (by decide)
    [⟨[⟨7, 10⟩, ⟨0, 2⟩, ⟨7, 10⟩, ⟨0, 2⟩], []⟩]
    [⟨2, Status.Exit, some 0⟩, ⟨7, Status.Enter, some 1⟩]
    [[(true, 0), (true, 1), (false, 1), (false, 0)]] (by rfl)
    (true, 0) (by unfold RefValid; decide)

end Curvo
